import Mathlib

/-!
A verification development for the songs2docx converter.

The Python sources are shallowly embedded here: strings become `List Char`,
fallible code returns `Except ConvError`, and the document-writing library is
abstracted away (a rendered paragraph is a list of `Run`s).  Each definition
is translated from the corresponding function or inline block of
`src/songs2docx.py` or `src/prepare_song_txt_files.py`; the doc comments name
the source locations.
-/

namespace Songs2Docx

/-- Errors raised by the converter.  They mirror the `ValueError` /
`IndexError` / `TypeError` exceptions of the Python source; structured
payloads stand for the data interpolated into the Python messages. -/
inductive ConvError where
  /-- `_get_bold_indices`: number of `<b>` tags differs from number of
  `</b>` tags; carries the two counts reported in the message. -/
  | tagCountMismatch (numOpen numClose : Nat)
  /-- `_build_document` (stanza loop): the flattened marker offsets are not
  in ascending order; carries the offending offset list. -/
  | unorderedMarkers (indices : List Nat)
  /-- `_read_file` header loop: mandatory key absent or trimmed-empty;
  carries the key and the `line_no` counter at the raise site. -/
  | keyNotDefined (key : List Char) (lineNo : Nat)
  /-- Python `IndexError` (out-of-range sequence subscript). -/
  | indexError
  /-- Python `TypeError` (e.g. `re.finditer` applied to `None`). -/
  | typeError
  /-- `PreprocessTxt.preprocess`: title not found in the Excel database
  after all fallback probes; carries the probed title. -/
  | entryNotFound (title : List Char)
deriving DecidableEq

/-- A rendered run: a piece of text of a paragraph with its bold flag.
Models the `add_run` calls of `_build_document` (plain or `.bold = True`). -/
structure Run where
  text : List Char
  bold : Bool
deriving DecidableEq

deriving instance DecidableEq for Except

/-- The literal opening marker `<b>` (3 characters). -/
def openTag : List Char := ['<', 'b', '>']

/-- The literal closing marker `</b>` (4 characters). -/
def closeTag : List Char := ['<', '/', 'b', '>']

/-- Does `s` start with `pat`?  Models Python `s.startswith(pat)` and also the
anchored test a regex match performs at a given offset. -/
def startsWith (s pat : List Char) : Bool :=
  match s, pat with
  | _, [] => true
  | [], _ :: _ => false
  | c :: s', p :: ps => p == c && startsWith s' ps

/-- Fuel-driven scanner behind `find_all_substrings`: the left-to-right,
non-overlapping scan shared by `str.find` in a loop (`_find_all_substrings`)
and `re.finditer` on a literal pattern (`_get_bold_indices`).  After a hit at
offset `i` the scan resumes at `i + pat.length`.  The fuel only makes the
recursion structural; `findFrom` below always supplies enough of it.  (The
`pat ≠ []` guard is never exercised: Python would not terminate there, and no
caller passes an empty pattern.) -/
def findFromF : Nat → List Char → List Char → Nat → List Nat
  | 0, _, _, _ => []
  | _ + 1, _, [], _ => []
  | fuel + 1, pat, c :: rest, i =>
    if startsWith (c :: rest) pat = true ∧ pat ≠ [] then
      i :: findFromF fuel pat ((c :: rest).drop pat.length) (i + pat.length)
    else
      findFromF fuel pat rest (i + 1)

/-- The scan of `s` for `pat` reporting offsets counted from `i`. -/
def findFrom (pat s : List Char) (i : Nat) : List Nat :=
  findFromF s.length pat s i

/-- All (non-overlapping) occurrence offsets of `sub` in `search`.
Models `Txt2Docx._find_all_substrings` (songs2docx.py lines 377-410). -/
def find_all_substrings (search sub : List Char) : List Nat :=
  findFrom sub search 0

/-- The Bold-Span Resolver, `Txt2Docx._get_bold_indices` (songs2docx.py
lines 412-438): independent scans for the two markers, the tag-count check,
and the positional `zip` pairing. -/
def get_bold_indices (text : List Char) : Except ConvError (List (Nat × Nat)) :=
  let bold_start_indices := find_all_substrings text openTag
  let bold_end_indices := find_all_substrings text closeTag
  if bold_start_indices.length ≠ bold_end_indices.length then
    .error (.tagCountMismatch bold_start_indices.length bold_end_indices.length)
  else
    .ok (bold_start_indices.zip bold_end_indices)

/-- `[index for pair in bold_indices for index in pair]`
(songs2docx.py line 207). -/
def flattenPairs : List (Nat × Nat) → List Nat
  | [] => []
  | p :: rest => p.1 :: p.2 :: flattenPairs rest

/-- The ascending-order check of `_build_document` (songs2docx.py lines
206-211): `total_indices != sorted(total_indices[:])` raises.  Python's
`sorted` is ascending and stable; on `Nat` any correct ascending sort yields
the same list, so `List.insertionSort (· ≤ ·)` models it exactly. -/
def checkAscending (spans : List (Nat × Nat)) : Except ConvError Unit :=
  let total_indices := flattenPairs spans
  if total_indices = List.insertionSort (· ≤ ·) total_indices then .ok ()
  else .error (.unorderedMarkers total_indices)

/-- Python slice `l[a:b]` for `0 ≤ a, b` (clamping semantics). -/
def pySlice (l : List Char) (a b : Nat) : List Char :=
  (l.take b).drop a

/-- Python `text_block.split("\n")` (songs2docx.py line 218). -/
def splitNl : List Char → List (List Char)
  | [] => [[]]
  | c :: rest =>
    if c = '\n' then [] :: splitNl rest
    else
      match splitNl rest with
      | [] => [[c]]
      | l :: ls => (c :: l) :: ls

/-- `block[0].upper() + block[1:]` (songs2docx.py lines 222-223): the
first-character capitalization, applied unconditionally; on an empty line
`block[0]` raises `IndexError`.  `Char.toUpper` stands for Python's
single-character `str.upper` on the characters occurring here. -/
def capitalizeFirst (line : List Char) : Except ConvError (List Char) :=
  match line with
  | [] => .error .indexError
  | c :: rest => .ok (c.toUpper :: rest)

/-- `re.sub(r"[A|V]: .", lambda m: m.group(0).upper(), block)` (songs2docx.py
lines 226-227).  The character class `[A|V]` contains the three literal
characters `A`, `|`, `V`; `.` matches any character except a newline; `re.sub`
replaces left-to-right, non-overlapping matches, resuming after each
4-character match; the replacement upper-cases the matched substring
character by character. -/
def labelCapitalize (s : List Char) : List Char :=
  match s with
  | a :: b :: c :: d :: rest =>
    if (a = 'A' ∨ a = '|' ∨ a = 'V') ∧ b = ':' ∧ c = ' ' ∧ d ≠ '\n' then
      a.toUpper :: b.toUpper :: c.toUpper :: d.toUpper :: labelCapitalize rest
    else
      a :: labelCapitalize (b :: c :: d :: rest)
  | s => s

/-- `start < newlines_position < end` over the span list (songs2docx.py
lines 234-241). -/
def isWithinBold (spans : List (Nat × Nat)) (pos : Nat) : Bool :=
  spans.any (fun p => decide (p.1 < pos) && decide (pos < p.2))

/-- The synthetic marker injection of `_build_document` (songs2docx.py lines
232-247): for each line break (one flag per newline, in order), when the
break lies strictly inside a span, append `</b>` to the line before it and
prepend `<b>` to the line after it.  The Python loop runs over ascending
break indices mutating the line array; this recursion produces the same
lines.  (The singleton fallback arm is unreachable: there is always one more
line than there are breaks.) -/
def injectBoldTags : List Bool → List (List Char) → List (List Char)
  | [], lines => lines
  | _ :: _, [] => []
  | b :: bs, l :: rest =>
    let rest' := injectBoldTags bs rest
    if b then
      match rest' with
      | [] => [l ++ closeTag]
      | r :: rs => (l ++ closeTag) :: (openTag ++ r) :: rs
    else
      l :: rest'

/-- The run-emission loop of `_build_document` (songs2docx.py lines 259-271):
walk the line-local spans; emit a plain run for a non-empty gap before a
span, a bold run for `line[start+3:end]`, and continue at `end + 4`; finally
a plain run for `line[pos:]` when `pos < len(line)`. -/
def buildRuns (line : List Char) : List (Nat × Nat) → Nat → List Run
  | [], pos =>
    if pos < line.length then [⟨line.drop pos, false⟩] else []
  | (s, e) :: rest, pos =>
    (if pos < s then [⟨pySlice line pos s, false⟩] else []) ++
      ⟨pySlice line (s + 3) e, true⟩ :: buildRuns line rest (e + 4)

/-- One line becomes one paragraph (songs2docx.py lines 252-271): re-run the
Bold-Span Resolver on the line alone, then emit its runs. -/
def renderLine (line : List Char) : Except ConvError (List Run) :=
  (get_bold_indices line).map (fun spans => buildRuns line spans 0)

/-- The full per-stanza processing of `_build_document` (songs2docx.py lines
203-272): stanza-level span resolution and ordering check (lines 203-211),
newline bookkeeping and split (lines 217-218), the two capitalization
transforms (lines 220-227), synthetic marker injection (lines 229-248), and
per-line resolution plus run emission (lines 250-272). -/
def processTextBlock (text_block : List Char) : Except ConvError (List (List Run)) := do
  let spans ← get_bold_indices text_block
  let _ ← checkAscending spans
  let newlines_positions := find_all_substrings text_block ['\n']
  let lines0 := splitNl text_block
  let lines1 ← lines0.mapM capitalizeFirst
  let lines2 := lines1.map labelCapitalize
  let flags := newlines_positions.map (isWithinBold spans)
  let lines3 := if spans.length > 0 then injectBoldTags flags lines2 else lines2
  lines3.mapM renderLine

/-- Python whitespace, as stripped by `str.strip()`, restricted to the
character repertoire of these files. -/
def pyIsSpace (c : Char) : Bool :=
  c == ' ' || c == '\t' || c == '\n' || c == '\r' || c == '\x0b' ||
    c == '\x0c' || c == '\xa0'

/-- Python `s.strip()`: drop leading and trailing whitespace. -/
def pyStrip (l : List Char) : List Char :=
  ((l.dropWhile pyIsSpace).reverse.dropWhile pyIsSpace).reverse

/-- `line.replace("\xa0", " ")` (songs2docx.py line 159): the source file
holds a literal non-breaking space as the pattern. -/
def nbspFix (l : List Char) : List Char :=
  l.map (fun c => if c = '\xa0' then ' ' else c)

/-- The stanza-splitter loop of `_read_file` (songs2docx.py lines 153-177).
The accumulator mirrors Python's `block` variable, which is `None` exactly
while `start_block` is false.  At end of input the open buffer is appended
unconditionally — including when it is `None`. -/
def readBlocksAux : List (List Char) → Option (List Char) → List (Option (List Char))
  | [], block => [block]
  | line :: rest, block =>
    let l := nbspFix (pyStrip line)
    if l ≠ [] then
      match block with
      | some b => readBlocksAux rest (some (b ++ '\n' :: l))
      | none => readBlocksAux rest (some l)
    else
      match block with
      | some b => some b :: readBlocksAux rest none
      | none => readBlocksAux rest none

/-- The Stanza Splitter: body lines to the `self._text` list. -/
def readBlocks (lines : List (List Char)) : List (Option (List Char)) :=
  readBlocksAux lines none

/-- The stanza loop of `_build_document` (songs2docx.py line 203) over the
`self._text` list: each entry is handed to `_get_bold_indices`, so a `None`
entry (trailing blank line) reaches `re.finditer`, which raises `TypeError`
on a non-string argument. -/
def renderStanzas (blocks : List (Option (List Char))) :
    Except ConvError (List (List (List Run))) :=
  blocks.mapM (fun ob =>
    match ob with
    | none => .error .typeError
    | some b => processTextBlock b)

/-- The header key configuration of `_read_file` (songs2docx.py lines
113-114): recognized keys in fixed order, each with its mandatory flag. -/
def headerKeys : List (List Char × Bool) :=
  [("TITLE".toList, true), ("TITLE_ORIGINAL".toList, false),
    ("REF_NO".toList, false), ("CAPO".toList, false),
    ("AUTHORS".toList, true), ("COPYRIGHT".toList, true),
    ("TAB_INDENT".toList, false)]

/-- The header-scanning loop of `_read_file` (songs2docx.py lines 112-139),
one step per configured key, in order.  Python probes `lines[0]` under the
vacuous guard `len(lines) >= 0`, so an empty line list raises `IndexError`.
On a `KEY=` match the line is consumed and `line_no` incremented; a value
that strips to empty is dropped; a missing or dropped value of a mandatory
key raises naming the key and the current `line_no`.  Returns the populated
fields in the order they were stored, the unconsumed lines, and `line_no`. -/
def readHeaderAux :
    List (List Char × Bool) → List (List Char) → List (List Char × List Char) →
      Nat → Except ConvError (List (List Char × List Char) × List (List Char) × Nat)
  | [], lines, vals, n => .ok (vals.reverse, lines, n)
  | (_, _) :: _, [], _, _ => .error .indexError
  | (key, mand) :: ks, line :: rest, vals, n =>
    if startsWith line (key ++ ['=']) then
      let value := line.drop (key.length + 1)
      if pyStrip value ≠ [] then
        readHeaderAux ks rest ((key, value) :: vals) (n + 1)
      else if mand then .error (.keyNotDefined key (n + 1))
      else readHeaderAux ks rest vals (n + 1)
    else if mand then .error (.keyNotDefined key n)
    else readHeaderAux ks (line :: rest) vals n

/-- The Header Parser: run the scan over the configured keys. -/
def readHeader (lines : List (List Char)) :
    Except ConvError (List (List Char × List Char) × List (List Char) × Nat) :=
  readHeaderAux headerKeys lines [] 0

/-- Re-serialize one populated header field as the line `KEY=VALUE`. -/
def serializeField (f : List Char × List Char) : List Char :=
  f.1 ++ '=' :: f.2

/-- Python `s.lower()`, character by character, on the characters occurring
here. -/
def pyLower (l : List Char) : List Char :=
  l.map Char.toLower

/-- `s.replace("–", "-")`: normalize the en-dash to a plain hyphen
(prepare_song_txt_files.py lines 179-181). -/
def dashFix (l : List Char) : List Char :=
  l.map (fun c => if c = '–' then '-' else c)

/-- One probe of the metadata table:
`self._df.loc[self._df['TITLE'].str.strip().str.lower() == q]`
(prepare_song_txt_files.py lines 176-181).  The table is modelled by its
`TITLE` column; a probe returns the matching rows, and `entry.size == 0`
holds exactly when no row matches (the column count is fixed and positive). -/
def probeDb (db : List (List Char)) (q : List Char) : List (List Char) :=
  db.filter (fun t => pyLower (pyStrip t) == q)

/-- The metadata lookup of `PreprocessTxt.preprocess` (prepare_song_txt_files
lines 175-183): exact probe on the lowered title, then the dash-normalized
probe, then the dash-normalized probe with the literal prefix word
`messe ` prepended; when all three are empty, fail naming the title. -/
def findDbEntry (db : List (List Char)) (title : List Char) :
    Except ConvError (List (List Char)) :=
  let e1 := probeDb db (pyLower title)
  if e1.length ≠ 0 then .ok e1
  else
    let e2 := probeDb db (dashFix (pyLower title))
    if e2.length ≠ 0 then .ok e2
    else
      let e3 := probeDb db ("messe ".toList ++ dashFix (pyLower title))
      if e3.length ≠ 0 then .ok e3
      else .error (.entryNotFound title)

/-- The concatenated text of the bold-flagged runs of one paragraph. -/
def boldTextOfRuns : List Run → List Char
  | [] => []
  | r :: rs => (if r.bold then r.text else []) ++ boldTextOfRuns rs

/-- The concatenated bold text across a list of paragraphs, in order. -/
def boldTextOfParas : List (List Run) → List Char
  | [] => []
  | p :: ps => boldTextOfRuns p ++ boldTextOfParas ps

/-- The literal tag `tag` occurs somewhere inside `l`. -/
def containsTag (l tag : List Char) : Prop :=
  ∃ s t, l = s ++ tag ++ t

/-- Character-for-character coverage up to the capitalization transforms:
each character of `x` is the corresponding character of `y` or its
upper-case, with no character duplicated or dropped. -/
def isCaseVariant : List Char → List Char → Bool
  | [], [] => true
  | a :: xs, b :: ys => (a == b || a == b.toUpper) && isCaseVariant xs ys
  | _, _ => false

/-! ### Basic facts about the scanner -/

@[simp] theorem startsWith_nil_pat (s : List Char) : startsWith s [] = true := by
  cases s <;> rfl

@[simp] theorem startsWith_nil_cons (p : Char) (ps : List Char) :
    startsWith [] (p :: ps) = false := rfl

@[simp] theorem startsWith_cons_cons (c p : Char) (s ps : List Char) :
    startsWith (c :: s) (p :: ps) = (p == c && startsWith s ps) := rfl

theorem startsWith_cons_ne {x p : Char} (xs ps : List Char) (h : p ≠ x) :
    startsWith (x :: xs) (p :: ps) = false := by
  simp [startsWith_cons_cons, h]

theorem startsWith_cons_same (x : Char) (xs ps : List Char) :
    startsWith (x :: xs) (x :: ps) = startsWith xs ps := by
  simp [startsWith_cons_cons]

theorem startsWith_append_self (pat t : List Char) :
    startsWith (pat ++ t) pat = true := by
  induction pat with
  | nil => simp
  | cons p ps ih => simpa [startsWith_cons_same] using ih

theorem findFromF_fuel_eq :
    ∀ (fuel1 fuel2 : Nat) (pat s : List Char) (i : Nat),
      s.length ≤ fuel1 → s.length ≤ fuel2 →
      findFromF fuel1 pat s i = findFromF fuel2 pat s i := by
  intro fuel1
  induction fuel1 with
  | zero =>
    intro fuel2 pat s i h1 _
    have hs : s = [] := List.length_eq_zero.mp (Nat.le_zero.mp h1)
    subst hs
    cases fuel2 <;> rfl
  | succ fuel ih =>
    intro fuel2 pat s i h1 h2
    cases s with
    | nil => cases fuel2 <;> rfl
    | cons c rest =>
      cases fuel2 with
      | zero => exact absurd h2 (by simp)
      | succ g =>
        simp only [findFromF]
        by_cases hcond : startsWith (c :: rest) pat = true ∧ pat ≠ []
        · rw [if_pos hcond, if_pos hcond]
          have hlen : ((c :: rest).drop pat.length).length ≤ rest.length := by
            have hp : 1 ≤ pat.length := by
              cases pat with
              | nil => exact absurd rfl hcond.2
              | cons _ _ => simp
            simp only [List.length_drop, List.length_cons]
            omega
          have hr1 : ((c :: rest).drop pat.length).length ≤ fuel := by
            have : rest.length ≤ fuel := by simpa using h1
            omega
          have hr2 : ((c :: rest).drop pat.length).length ≤ g := by
            have : rest.length ≤ g := by simpa using h2
            omega
          exact congrArg _ (ih g pat _ _ hr1 hr2)
        · rw [if_neg hcond, if_neg hcond]
          have hr1 : rest.length ≤ fuel := by simpa using h1
          have hr2 : rest.length ≤ g := by simpa using h2
          exact ih g pat rest (i + 1) hr1 hr2

theorem findFrom_nil (pat : List Char) (i : Nat) : findFrom pat [] i = [] := rfl

theorem findFrom_cons_hit {pat : List Char} {c : Char} {rest : List Char} (i : Nat)
    (h : startsWith (c :: rest) pat = true) (hne : pat ≠ []) :
    findFrom pat (c :: rest) i =
      i :: findFrom pat ((c :: rest).drop pat.length) (i + pat.length) := by
  show findFromF (c :: rest).length pat (c :: rest) i = _
  have hlen : (c :: rest).length = rest.length + 1 := rfl
  rw [hlen]
  simp only [findFromF]
  rw [if_pos ⟨h, hne⟩]
  congr 1
  apply findFromF_fuel_eq
  · have hp : 1 ≤ pat.length := by
      cases pat with
      | nil => exact absurd rfl hne
      | cons _ _ => simp
    simp only [List.length_drop, List.length_cons]
    omega
  · exact le_rfl

theorem findFrom_cons_miss {pat : List Char} {c : Char} {rest : List Char} (i : Nat)
    (h : startsWith (c :: rest) pat = false) :
    findFrom pat (c :: rest) i = findFrom pat rest (i + 1) := by
  show findFromF (c :: rest).length pat (c :: rest) i = _
  have hlen : (c :: rest).length = rest.length + 1 := rfl
  rw [hlen]
  simp only [findFromF]
  rw [if_neg]
  · rfl
  · intro hc
    rw [h] at hc
    exact absurd hc.1 (by simp)

theorem findFrom_append_head {hd : Char} {tl : List Char} (s t : List Char) (i : Nat)
    (hhd : hd ∉ s) :
    findFrom (hd :: tl) (s ++ t) i = findFrom (hd :: tl) t (i + s.length) := by
  induction s generalizing i with
  | nil => simp
  | cons c s' ih =>
    have h1 : hd ≠ c := fun h => hhd (h ▸ List.mem_cons_self c s')
    have h2 : hd ∉ s' := fun h => hhd (List.mem_cons_of_mem _ h)
    rw [List.cons_append, findFrom_cons_miss i (startsWith_cons_ne _ _ h1),
      ih (i + 1) h2]
    congr 1
    simp only [List.length_cons]
    omega

theorem findFrom_head_nil {hd : Char} {tl : List Char} (s : List Char) (i : Nat)
    (hhd : hd ∉ s) : findFrom (hd :: tl) s i = [] := by
  have := @findFrom_append_head hd tl s [] i hhd
  simpa using this

theorem findFrom_self (pat t : List Char) (i : Nat) (hne : pat ≠ []) :
    findFrom pat (pat ++ t) i = i :: findFrom pat t (i + pat.length) := by
  cases pat with
  | nil => exact absurd rfl hne
  | cons p ps =>
    rw [List.cons_append,
      findFrom_cons_hit i (by rw [← List.cons_append]; exact startsWith_append_self _ _)
        (by simp)]
    rw [← List.cons_append, List.drop_left]

theorem findFrom_close_over_open (t : List Char) (i : Nat) :
    findFrom closeTag (openTag ++ t) i = findFrom closeTag t (i + 3) := by
  simp only [openTag, closeTag, List.cons_append, List.nil_append]
  rw [findFrom_cons_miss i (by
      rw [startsWith_cons_same]
      exact startsWith_cons_ne _ _ (by decide)),
    findFrom_cons_miss (i + 1) (startsWith_cons_ne _ _ (by decide)),
    findFrom_cons_miss (i + 1 + 1) (startsWith_cons_ne _ _ (by decide))]

theorem findFrom_open_over_close (t : List Char) (i : Nat) :
    findFrom openTag (closeTag ++ t) i = findFrom openTag t (i + 4) := by
  simp only [openTag, closeTag, List.cons_append, List.nil_append]
  rw [findFrom_cons_miss i (by
      rw [startsWith_cons_same]
      exact startsWith_cons_ne _ _ (by decide)),
    findFrom_cons_miss (i + 1) (startsWith_cons_ne _ _ (by decide)),
    findFrom_cons_miss (i + 1 + 1) (startsWith_cons_ne _ _ (by decide)),
    findFrom_cons_miss (i + 1 + 1 + 1) (startsWith_cons_ne _ _ (by decide))]

/-! ### The Bold-Span Resolver: tag counting and pairing -/

theorem flattenPairs_chain_facts {l : List (Nat × Nat)}
    (h : List.Chain' (· < ·) (flattenPairs l)) :
    (∀ p ∈ l, p.1 < p.2) ∧ List.Chain' (fun p q : Nat × Nat => p.2 ≤ q.1) l := by
  induction l with
  | nil => exact ⟨by simp, List.chain'_nil⟩
  | cons p rest ih =>
    have hflat : flattenPairs (p :: rest) = p.1 :: p.2 :: flattenPairs rest := rfl
    rw [hflat, List.chain'_cons] at h
    obtain ⟨h12, h2⟩ := h
    cases rest with
    | nil =>
      refine ⟨?_, ?_⟩
      · intro q hq
        rcases List.mem_singleton.mp hq with rfl
        exact h12
      · exact List.chain'_singleton _
    | cons q rest' =>
      have hflat' : flattenPairs (q :: rest') = q.1 :: q.2 :: flattenPairs rest' := rfl
      rw [hflat', List.chain'_cons] at h2
      obtain ⟨h2q, hq2⟩ := h2
      obtain ⟨ihall, ihchain⟩ := ih (by rw [hflat']; exact hq2)
      refine ⟨?_, ?_⟩
      · intro r hr
        rcases List.mem_cons.mp hr with rfl | hr
        · exact h12
        · exact ihall r hr
      · exact List.chain'_cons.mpr ⟨Nat.le_of_lt h2q, ihchain⟩

/-- C3: for any string in which the number of occurrences of the literal
opening marker `<b>` differs from the number of occurrences of the literal
closing marker `</b>`, the Bold-Span Resolver (`_get_bold_indices`) fails
with the tag-count-mismatch error carrying both counts. -/
theorem resolver_tag_count_mismatch (text : List Char)
    (h : (find_all_substrings text openTag).length ≠
      (find_all_substrings text closeTag).length) :
    get_bold_indices text =
      .error (.tagCountMismatch (find_all_substrings text openTag).length
        (find_all_substrings text closeTag).length) := by
  simp only [get_bold_indices]
  rw [if_pos h]

/-- Witness for C3 at the concrete input `"<b>x"`: one opening and zero
closing markers. -/
theorem resolver_tag_count_mismatch_witness :
    get_bold_indices ("<b>x".toList) = .error (.tagCountMismatch 1 0) := by
  have h : (find_all_substrings ("<b>x".toList) openTag).length ≠
      (find_all_substrings ("<b>x".toList) closeTag).length := by decide
  have := resolver_tag_count_mismatch ("<b>x".toList) h
  simpa using this

/-- C4: for any string with equally many `<b>` and `</b>` occurrences whose
flattened pair-order offset list is strictly ascending, the resolver returns
exactly one span per occurrence pair, pairing the i-th opening with the i-th
closing occurrence (the `zip`), with `start < end` on every span and
`end ≤ start` between adjacent spans. -/
theorem resolver_well_formed_spans (text : List Char) (starts ends : List Nat)
    (hs : starts = find_all_substrings text openTag)
    (he : ends = find_all_substrings text closeTag)
    (hlen : starts.length = ends.length)
    (hasc : List.Chain' (· < ·) (flattenPairs (starts.zip ends))) :
    get_bold_indices text = .ok (starts.zip ends) ∧
      (starts.zip ends).length = starts.length ∧
      (starts.zip ends).map Prod.fst = starts ∧
      (starts.zip ends).map Prod.snd = ends ∧
      (∀ p ∈ starts.zip ends, p.1 < p.2) ∧
      List.Chain' (fun p q : Nat × Nat => p.2 ≤ q.1) (starts.zip ends) := by
  obtain ⟨hlt, hchain⟩ := flattenPairs_chain_facts hasc
  refine ⟨?_, ?_, ?_, ?_, hlt, hchain⟩
  · simp only [get_bold_indices]
    rw [if_neg (by rw [← hs, ← he, hlen]; simp), hs, he]
  · rw [List.length_zip]
    omega
  · exact List.map_fst_zip starts ends (le_of_eq hlen)
  · exact List.map_snd_zip starts ends (ge_of_eq hlen)

/-- Witness for C4 at `"<b>a</b> <b>c</b>"`: two spans `(0, 4)` and
`(9, 13)`, paired positionally. -/
theorem resolver_well_formed_spans_witness :
    get_bold_indices ("<b>a</b> <b>c</b>".toList) = .ok [(0, 4), (9, 13)] ∧
      ((0 : Nat) < 4 ∧ (9 : Nat) < 13) :=
  ⟨(resolver_well_formed_spans ("<b>a</b> <b>c</b>".toList) [0, 9] [4, 13]
      (by decide) (by decide) (by decide)
      (by show List.Chain' (· < ·) [0, 4, 9, 13]; norm_num [List.chain'_cons])).1,
    by decide⟩

/-! ### Offsets reported by the scanner are increasing occurrence positions -/

theorem findFromF_ge :
    ∀ (fuel : Nat) (pat s : List Char) (i j : Nat),
      j ∈ findFromF fuel pat s i → i ≤ j := by
  intro fuel
  induction fuel with
  | zero => intro pat s i j h; simp [findFromF] at h
  | succ fuel ih =>
    intro pat s i j h
    cases s with
    | nil => simp [findFromF] at h
    | cons c rest =>
      simp only [findFromF] at h
      by_cases hc : startsWith (c :: rest) pat = true ∧ pat ≠ []
      · rw [if_pos hc] at h
        rcases List.mem_cons.mp h with rfl | h
        · exact le_rfl
        · have := ih pat _ _ _ h
          omega
      · rw [if_neg hc] at h
        have := ih pat _ _ _ h
        omega

theorem findFromF_chain :
    ∀ (fuel : Nat) (pat s : List Char) (i : Nat),
      List.Chain' (· < ·) (findFromF fuel pat s i) := by
  intro fuel
  induction fuel with
  | zero => intro pat s i; simp [findFromF]
  | succ fuel ih =>
    intro pat s i
    cases s with
    | nil => simp [findFromF]
    | cons c rest =>
      simp only [findFromF]
      by_cases hc : startsWith (c :: rest) pat = true ∧ pat ≠ []
      · rw [if_pos hc]
        refine List.chain'_cons'.mpr ⟨?_, ih pat _ _⟩
        intro b hb
        have hmem : b ∈ findFromF fuel pat ((c :: rest).drop pat.length)
            (i + pat.length) := List.mem_of_mem_head? hb
        have hge := findFromF_ge fuel pat _ _ _ hmem
        have hp : 1 ≤ pat.length := by
          cases pat with
          | nil => exact absurd rfl hc.2
          | cons _ _ => simp
        omega
      · rw [if_neg hc]
        exact ih pat _ _

theorem findFromF_occurrence :
    ∀ (fuel : Nat) (pat s : List Char) (i j : Nat),
      j ∈ findFromF fuel pat s i → startsWith (s.drop (j - i)) pat = true := by
  intro fuel
  induction fuel with
  | zero => intro pat s i j h; simp [findFromF] at h
  | succ fuel ih =>
    intro pat s i j h
    cases s with
    | nil => simp [findFromF] at h
    | cons c rest =>
      simp only [findFromF] at h
      by_cases hc : startsWith (c :: rest) pat = true ∧ pat ≠ []
      · rw [if_pos hc] at h
        rcases List.mem_cons.mp h with rfl | h
        · simpa using hc.1
        · have hge := findFromF_ge fuel pat _ _ _ h
          have := ih pat _ _ _ h
          rwa [List.drop_drop,
            show pat.length + (j - (i + pat.length)) = j - i by omega] at this
      · rw [if_neg hc] at h
        have hge := findFromF_ge fuel pat _ _ _ h
        have := ih pat _ _ _ h
        have hdrop : (c :: rest).drop (j - i) = rest.drop (j - (i + 1)) := by
          rw [show j - i = (j - (i + 1)) + 1 by omega]
          rfl
        rwa [hdrop]

theorem find_all_substrings_chain (search sub : List Char) :
    List.Chain' (· < ·) (find_all_substrings search sub) :=
  findFromF_chain search.length sub search 0

theorem find_all_substrings_occurrence {search sub : List Char} {j : Nat}
    (h : j ∈ find_all_substrings search sub) :
    startsWith (search.drop j) sub = true := by
  have := findFromF_occurrence search.length sub search 0 j h
  simpa using this

/-- An offset cannot carry both an opening and a closing marker: the
characters one past the `<` would have to be both `b` and `/`. -/
theorem starts_ends_disjoint (text : List Char) :
    ∀ j ∈ find_all_substrings text openTag,
      j ∉ find_all_substrings text closeTag := by
  intro j hj hj'
  have h1 := find_all_substrings_occurrence hj
  have h2 := find_all_substrings_occurrence hj'
  cases hd : text.drop j with
  | nil => rw [hd] at h1; simp [openTag] at h1
  | cons a rest =>
    cases rest with
    | nil => rw [hd] at h1; simp [openTag, startsWith_cons_cons] at h1
    | cons b rest' =>
      rw [hd] at h1 h2
      simp only [openTag, closeTag, startsWith_cons_cons, Bool.and_eq_true,
        beq_iff_eq] at h1 h2
      have hb : b = 'b' := (h1.2.1).symm
      have hsl : b = '/' := (h2.2.1).symm
      rw [hb] at hsl
      exact absurd hsl (by decide)

theorem mem_flattenPairs_zip :
    ∀ (as bs : List Nat) (x : Nat),
      x ∈ flattenPairs (as.zip bs) → x ∈ as ∨ x ∈ bs := by
  intro as
  induction as with
  | nil => intro bs x h; simp [flattenPairs] at h
  | cons a as' ih =>
    intro bs x h
    cases bs with
    | nil => simp [flattenPairs] at h
    | cons b bs' =>
      have : flattenPairs ((a :: as').zip (b :: bs')) =
          a :: b :: flattenPairs (as'.zip bs') := rfl
      rw [this] at h
      rcases List.mem_cons.mp h with rfl | h
      · exact Or.inl (List.mem_cons_self _ _)
      rcases List.mem_cons.mp h with rfl | h
      · exact Or.inr (List.mem_cons_self _ _)
      rcases ih bs' x h with h | h
      · exact Or.inl (List.mem_cons_of_mem _ h)
      · exact Or.inr (List.mem_cons_of_mem _ h)

theorem nodup_flattenPairs_zip :
    ∀ (as bs : List Nat), as.Pairwise (· < ·) → bs.Pairwise (· < ·) →
      (∀ a ∈ as, a ∉ bs) → (flattenPairs (as.zip bs)).Nodup := by
  intro as
  induction as with
  | nil => intro bs _ _ _; simp [flattenPairs]
  | cons a as' ih =>
    intro bs ha hb hd
    cases bs with
    | nil => simp [flattenPairs]
    | cons b bs' =>
      have hflat : flattenPairs ((a :: as').zip (b :: bs')) =
          a :: b :: flattenPairs (as'.zip bs') := rfl
      rw [hflat]
      have hand := hd a (List.mem_cons_self _ _)
      have hab : a ≠ b := fun h => hand (h ▸ List.mem_cons_self b bs')
      have hanb : a ∉ bs' := fun h => hand (List.mem_cons_of_mem _ h)
      have hba : ∀ x ∈ as', x ≠ b := fun x hx h =>
        hd x (List.mem_cons_of_mem _ hx) (h ▸ List.mem_cons_self b bs')
      refine List.nodup_cons.mpr ⟨?_, List.nodup_cons.mpr ⟨?_, ?_⟩⟩
      · intro hmem
        rcases List.mem_cons.mp hmem with h | h
        · exact hab h
        · rcases mem_flattenPairs_zip as' bs' a h with h | h
          · exact absurd rfl (ne_of_gt (List.rel_of_pairwise_cons ha h))
          · exact hanb h
      · intro hmem
        rcases mem_flattenPairs_zip as' bs' b hmem with h | h
        · exact hba b h rfl
        · exact absurd rfl (ne_of_gt (List.rel_of_pairwise_cons hb h))
      · exact ih bs' ha.of_cons hb.of_cons
          (fun x hx hx' => hd x (List.mem_cons_of_mem _ hx)
            (List.mem_cons_of_mem _ hx'))

/-- C2 counterexample: the per-line re-run of the resolver is
`_get_bold_indices` alone (songs2docx.py line 254), and on the string
`"</b>x<b>"` — whose flattened pair-order offset list `[5, 0]` is not
strictly ascending — it succeeds with the span `(5, 0)` instead of failing
with an unordered-markers error. -/
theorem per_line_resolver_skips_order_check :
    get_bold_indices ("</b>x<b>".toList) = .ok [(5, 0)] ∧
      ¬ List.Chain' (· < ·) (flattenPairs [((5 : Nat), 0)]) := by
  refine ⟨by decide, ?_⟩
  show ¬ List.Chain' (· < ·) [5, 0]
  norm_num [List.chain'_cons]

/-- C2 (amended): the unordered-markers validation happens only at the
stanza level — `_build_document` checks the flattened offsets of the
stanza-level resolution (songs2docx.py lines 206-211) and aborts the stanza
with the unordered-markers error when they are not strictly ascending; the
per-line re-run of the resolver repeats only the tag-count check.  (For
marker offsets, not-strictly-ascending and not-non-decreasing coincide: an
opening and a closing marker can never share an offset.) -/
theorem stanza_unordered_markers_rejected (text : List Char)
    (hlen : (find_all_substrings text openTag).length =
      (find_all_substrings text closeTag).length)
    (hasc : ¬ List.Chain' (· < ·) (flattenPairs
      ((find_all_substrings text openTag).zip
        (find_all_substrings text closeTag)))) :
    processTextBlock text = .error (.unorderedMarkers (flattenPairs
      ((find_all_substrings text openTag).zip
        (find_all_substrings text closeTag)))) := by
  have hok : get_bold_indices text =
      .ok ((find_all_substrings text openTag).zip
        (find_all_substrings text closeTag)) := by
    simp only [get_bold_indices]
    rw [if_neg (by omega)]
  have hnodup : (flattenPairs ((find_all_substrings text openTag).zip
      (find_all_substrings text closeTag))).Nodup :=
    nodup_flattenPairs_zip _ _
      (List.chain'_iff_pairwise.mp (find_all_substrings_chain text openTag))
      (List.chain'_iff_pairwise.mp (find_all_substrings_chain text closeTag))
      (starts_ends_disjoint text)
  have hchk : checkAscending ((find_all_substrings text openTag).zip
      (find_all_substrings text closeTag)) =
      .error (.unorderedMarkers (flattenPairs
        ((find_all_substrings text openTag).zip
          (find_all_substrings text closeTag)))) := by
    simp only [checkAscending]
    rw [if_neg]
    intro heq
    have hsorted : (flattenPairs ((find_all_substrings text openTag).zip
        (find_all_substrings text closeTag))).Pairwise (· ≤ ·) := by
      have := List.sorted_insertionSort (· ≤ ·) (flattenPairs
        ((find_all_substrings text openTag).zip
          (find_all_substrings text closeTag)))
      rw [← heq] at this
      exact this
    have hpair : (flattenPairs ((find_all_substrings text openTag).zip
        (find_all_substrings text closeTag))).Pairwise (· < ·) :=
      (hsorted.and hnodup).imp (fun h => lt_of_le_of_ne h.1 h.2)
    exact hasc (List.chain'_iff_pairwise.mpr hpair)
  simp only [processTextBlock, hok, hchk, Except.bind, bind]

/-- Witness for the amended C2 at `"</b>x<b>"`: the whole stanza processing
fails with the unordered-markers error carrying `[5, 0]`. -/
theorem stanza_unordered_markers_rejected_witness :
    processTextBlock ("</b>x<b>".toList) =
      .error (.unorderedMarkers [5, 0]) := by
  have h := stanza_unordered_markers_rejected ("</b>x<b>".toList)
    (by decide)
    (by
      show ¬ List.Chain' (· < ·) [5, 0]
      norm_num [List.chain'_cons])
  simpa using h

/-! ### The header scan and the stanza splitter on their failing inputs -/

/-- C5: the Python guard `len(lines) >= 0` is vacuously true, so the header
scan probes `lines[0]` even on an exhausted line list.  On the input
consisting of the single line `TITLE=x` — where `AUTHORS` and `COPYRIGHT`
are absent — the scan raises `IndexError` at the very next key probe instead
of a structural error naming a missing mandatory field.  When an unconsumed
line remains, the intended behavior does surface: with lines
`TITLE=x`, `AUTHORS=y`, `body`, the missing `COPYRIGHT` is reported by name
with the count of consumed header lines. -/
theorem header_scan_runs_out_of_lines :
    readHeader [("TITLE=x".toList)] = .error .indexError ∧
      readHeader [("TITLE=x".toList), ("AUTHORS=y".toList), ("body".toList)] =
        .error (.keyNotDefined ("COPYRIGHT".toList) 2) := by
  constructor <;> decide

/-- C6: the stanza splitter appends the last open buffer unconditionally, so
a body ending on a blank line yields a final `None` stanza — and the
renderer does not tolerate it: `_build_document` hands the `None` to
`re.finditer`, which raises `TypeError`, so rendering fails. -/
theorem trailing_blank_line_breaks_rendering :
    readBlocks [("Hello".toList), ("".toList)] =
        [some ("Hello".toList), none] ∧
      renderStanzas (readBlocks [("Hello".toList), ("".toList)]) =
        .error .typeError := by
  constructor <;> decide

/-! ### Stanza lines are never empty, so the capitalization never fails -/

theorem splitNl_ne_nil (s : List Char) : splitNl s ≠ [] := by
  cases s with
  | nil => simp [splitNl]
  | cons c rest =>
    simp only [splitNl]
    by_cases hc : c = '\n'
    · rw [if_pos hc]; simp
    · rw [if_neg hc]
      cases h : splitNl rest <;> simp

theorem splitNl_no_nl {s : List Char} (h : '\n' ∉ s) : splitNl s = [s] := by
  induction s with
  | nil => rfl
  | cons c rest ih =>
    have hc : c ≠ '\n' := fun hc => h (hc ▸ List.mem_cons_self c rest)
    have hr : '\n' ∉ rest := fun hr => h (List.mem_cons_of_mem _ hr)
    simp only [splitNl]
    rw [if_neg hc, ih hr]

theorem splitNl_append_nl (x y : List Char) :
    splitNl (x ++ '\n' :: y) = splitNl x ++ splitNl y := by
  induction x with
  | nil => simp [splitNl]
  | cons c x' ih =>
    by_cases hc : c = '\n'
    · subst hc
      show splitNl ('\n' :: (x' ++ '\n' :: y)) = splitNl ('\n' :: x') ++ splitNl y
      simp only [splitNl, if_true]
      rw [ih]
      rfl
    · show splitNl (c :: (x' ++ '\n' :: y)) = splitNl (c :: x') ++ splitNl y
      simp only [splitNl]
      rw [if_neg hc, if_neg hc, ih]
      cases hx : splitNl x' with
      | nil => exact absurd hx (splitNl_ne_nil x')
      | cons l ls => simp

theorem mem_dropWhile {x : Char} {p : Char → Bool} {l : List Char}
    (h : x ∈ l.dropWhile p) : x ∈ l := by
  induction l with
  | nil => simp at h
  | cons c cs ih =>
    by_cases hp : p c
    · rw [List.dropWhile_cons, if_pos hp] at h
      exact List.mem_cons_of_mem _ (ih h)
    · rw [List.dropWhile_cons, if_neg hp] at h
      exact h

theorem mem_pyStrip {x : Char} {l : List Char} (h : x ∈ pyStrip l) : x ∈ l := by
  unfold pyStrip at h
  rw [List.mem_reverse] at h
  have h1 := mem_dropWhile h
  rw [List.mem_reverse] at h1
  exact mem_dropWhile h1

theorem no_nl_nbspFix_pyStrip {line : List Char} (h : '\n' ∉ line) :
    '\n' ∉ nbspFix (pyStrip line) := by
  intro hmem
  unfold nbspFix at hmem
  obtain ⟨c, hc, heq⟩ := List.mem_map.mp hmem
  by_cases hnb : c = '\xa0'
  · rw [if_pos hnb] at heq
    exact absurd heq (by decide)
  · rw [if_neg hnb] at heq
    exact h (heq ▸ mem_pyStrip hc)

theorem readBlocksAux_split_ne_nil :
    ∀ (lines : List (List Char)) (acc : Option (List Char)),
      (∀ line ∈ lines, '\n' ∉ line) →
      (∀ b, acc = some b → ∀ l ∈ splitNl b, l ≠ []) →
      ∀ ob ∈ readBlocksAux lines acc, ∀ b, ob = some b →
        ∀ l ∈ splitNl b, l ≠ [] := by
  intro lines
  induction lines with
  | nil =>
    intro acc _ hacc ob hob b hb l hl
    simp only [readBlocksAux, List.mem_singleton] at hob
    exact hacc b (hob ▸ hb) l hl
  | cons line rest ih =>
    intro acc hnl hacc ob hob b hb l hl
    have hnl' : ∀ x ∈ rest, '\n' ∉ x := fun x hx => hnl x (List.mem_cons_of_mem _ hx)
    have hlinenl : '\n' ∉ line := hnl line (List.mem_cons_self _ _)
    simp only [readBlocksAux] at hob
    by_cases hne : nbspFix (pyStrip line) ≠ []
    · rw [if_pos hne] at hob
      cases acc with
      | some b0 =>
        refine ih _ hnl' ?_ ob hob b hb l hl
        intro b1 hb1 l1 hl1
        have hb1' : b1 = b0 ++ '\n' :: nbspFix (pyStrip line) :=
          (Option.some_inj.mp hb1).symm
        rw [hb1', splitNl_append_nl] at hl1
        rcases List.mem_append.mp hl1 with hmem | hmem
        · exact hacc b0 rfl l1 hmem
        · rw [splitNl_no_nl (no_nl_nbspFix_pyStrip hlinenl)] at hmem
          rw [List.mem_singleton.mp hmem]
          exact hne
      | none =>
        refine ih _ hnl' ?_ ob hob b hb l hl
        intro b1 hb1 l1 hl1
        have hb1' : b1 = nbspFix (pyStrip line) :=
          (Option.some_inj.mp hb1).symm
        rw [hb1', splitNl_no_nl (no_nl_nbspFix_pyStrip hlinenl)] at hl1
        rw [List.mem_singleton.mp hl1]
        exact hne
    · rw [if_neg hne] at hob
      cases acc with
      | some b0 =>
        rcases List.mem_cons.mp hob with heq | hob'
        · have hbb : b = b0 := Option.some_inj.mp (heq.symm.trans hb).symm
          exact hacc b0 rfl l (hbb ▸ hl)
        · exact ih _ hnl' (fun b1 hb1 => Option.noConfusion hb1) ob hob' b hb l hl
      | none =>
        exact ih _ hnl' (fun b1 hb1 => Option.noConfusion hb1) ob hob b hb l hl

/-- C7 counterexample: the capitalization transform is not skipped for empty
lines — applied to the empty line, `block[0]` raises `IndexError`. -/
theorem capitalize_empty_line_raises :
    capitalizeFirst [] = .error .indexError := rfl

/-- C7 (amended): every line the re-flow capitalization transform processes
is non-empty — a stanza accumulates only non-empty trimmed lines, so
splitting its text on newlines yields no empty piece — and on a non-empty
line the first-character upper-casing succeeds without an index error.  The
transform has no empty-line guard: on an empty line it would raise an index
error, but the pipeline never produces one. -/
theorem capitalize_pipeline_lines_nonempty
    (body : List (List Char)) (hnl : ∀ line ∈ body, '\n' ∉ line)
    (ob : Option (List Char)) (hob : ob ∈ readBlocks body)
    (b : List Char) (hb : ob = some b)
    (l : List Char) (hl : l ∈ splitNl b) :
    l ≠ [] ∧ ∃ r, capitalizeFirst l = .ok r := by
  have hne := readBlocksAux_split_ne_nil body none hnl
    (fun b1 hb1 => Option.noConfusion hb1) ob hob b hb l hl
  refine ⟨hne, ?_⟩
  cases l with
  | nil => exact absurd rfl hne
  | cons c cs => exact ⟨c.toUpper :: cs, rfl⟩

/-- Witness for the amended C7: the single stanza line `Hi` is non-empty and
is capitalized without an index error. -/
theorem capitalize_pipeline_lines_nonempty_witness :
    ("Hi".toList ≠ []) ∧ ∃ r, capitalizeFirst ("Hi".toList) = .ok r :=
  capitalize_pipeline_lines_nonempty [("Hi".toList)] (by decide)
    (some ("Hi".toList)) (by decide) ("Hi".toList) rfl ("Hi".toList) (by decide)

/-! ### The metadata lookup and the label capitalization -/

/-- C9: when the exact probe of the metadata table finds nothing but the
dash-normalized probe does, the lookup succeeds with the dash-normalized
matches; when all three documented probes (exact, dash-normalized,
dash-normalized with the literal prefix word `messe `) find nothing, the
lookup fails with the error naming the probed title. -/
theorem metadata_lookup_probes (db : List (List Char)) (title : List Char) :
    (probeDb db (pyLower title) = [] →
      probeDb db (dashFix (pyLower title)) ≠ [] →
      findDbEntry db title = .ok (probeDb db (dashFix (pyLower title)))) ∧
    (probeDb db (pyLower title) = [] →
      probeDb db (dashFix (pyLower title)) = [] →
      probeDb db ("messe ".toList ++ dashFix (pyLower title)) = [] →
      findDbEntry db title = .error (.entryNotFound title)) := by
  constructor
  · intro h1 h2
    simp only [findDbEntry]
    rw [if_neg (by simp [h1]), if_pos (by simpa using h2)]
  · intro h1 h2 h3
    have h3' : probeDb db
        ('m' :: 'e' :: 's' :: 's' :: 'e' :: ' ' :: dashFix (pyLower title)) = [] := h3
    simp only [findDbEntry]
    rw [if_neg (by simp [h1]), if_neg (by simp [h2]), if_neg (by simp [h3'])]

/-- Witness for C9: the title `A–B` is found only after dash normalization
in the one-row table `a-b`; the title `abc` is found by no probe against the
one-row table `zzz` and the error names `abc`. -/
theorem metadata_lookup_probes_witness :
    findDbEntry [("a-b".toList)] ("A–B".toList) = .ok [("a-b".toList)] ∧
      findDbEntry [("zzz".toList)] ("abc".toList) =
        .error (.entryNotFound ("abc".toList)) := by
  constructor
  · have h := (metadata_lookup_probes [("a-b".toList)] ("A–B".toList)).1
      (by decide) (by decide)
    simpa using h
  · have h := (metadata_lookup_probes [("zzz".toList)] ("abc".toList)).2
      (by decide) (by decide) (by decide)
    simpa using h

/-- C10 counterexample: in `"V: A: x"` the pattern also occurs at offset 3
(`A: x`), but `re.sub` scans left-to-right without overlap — the match at
offset 0 consumes offsets 0-3, the scan resumes at offset 4, and the
occurrence at offset 3 never triggers, so the `x` after `A: ` stays
lower-case and the string is returned unchanged. -/
theorem label_capitalize_misses_overlapping_occurrence :
    labelCapitalize ("V: A: x".toList) = "V: A: x".toList ∧
      ("V: A: x".toList).drop 3 = 'A' :: ':' :: ' ' :: 'x' :: [] := by
  constructor <;> decide

/-- C10 (amended): the transform triggers at every occurrence the
left-to-right non-overlapping scan reaches: at a match — one of the literal
characters `A`, `|`, `V` (the `|` is a member of the character class),
followed by `: `, followed by any one non-newline character — the matched
substring is replaced by its character-wise upper-case (net effect: the
single character after the label is upper-cased), and the scan resumes after
the four matched characters. -/
theorem label_capitalize_match (a d : Char) (rest : List Char)
    (ha : a = 'A' ∨ a = '|' ∨ a = 'V') (hd : d ≠ '\n') :
    labelCapitalize (a :: ':' :: ' ' :: d :: rest) =
      a :: ':' :: ' ' :: d.toUpper :: labelCapitalize rest := by
  simp only [labelCapitalize]
  rw [if_pos ⟨ha, trivial, trivial, hd⟩]
  rcases ha with rfl | rfl | rfl <;>
    rw [show Char.toUpper ':' = ':' by decide, show Char.toUpper ' ' = ' ' by decide] <;>
    norm_num [show Char.toUpper 'A' = 'A' by decide, show Char.toUpper '|' = '|' by decide,
      show Char.toUpper 'V' = 'V' by decide]

/-- Witness for the amended C10 at `"|: x"`: the `|` label triggers and the
`x` after it is upper-cased. -/
theorem label_capitalize_match_witness :
    labelCapitalize ("|: x".toList) = "|: X".toList := by
  have h := label_capitalize_match '|' 'x' [] (Or.inr (Or.inl rfl)) (by decide)
  exact h.trans (by decide)

/-! ### Scanning composite strings built around one marker pair -/

theorem findFrom_open_skip (s t : List Char) (i : Nat) (h : '<' ∉ s) :
    findFrom openTag (s ++ t) i = findFrom openTag t (i + s.length) := by
  show findFrom ('<' :: 'b' :: '>' :: []) (s ++ t) i = _
  exact findFrom_append_head s t i h

theorem findFrom_close_skip (s t : List Char) (i : Nat) (h : '<' ∉ s) :
    findFrom closeTag (s ++ t) i = findFrom closeTag t (i + s.length) := by
  show findFrom ('<' :: '/' :: 'b' :: '>' :: []) (s ++ t) i = _
  exact findFrom_append_head s t i h

theorem findFrom_open_nil (s : List Char) (i : Nat) (h : '<' ∉ s) :
    findFrom openTag s i = [] := by
  show findFrom ('<' :: 'b' :: '>' :: []) s i = []
  exact findFrom_head_nil s i h

theorem findFrom_close_nil (s : List Char) (i : Nat) (h : '<' ∉ s) :
    findFrom closeTag s i = [] := by
  show findFrom ('<' :: '/' :: 'b' :: '>' :: []) s i = []
  exact findFrom_head_nil s i h

theorem findFrom_open_self (t : List Char) (i : Nat) :
    findFrom openTag (openTag ++ t) i = i :: findFrom openTag t (i + 3) :=
  findFrom_self openTag t i (by simp [openTag])

theorem findFrom_close_self (t : List Char) (i : Nat) :
    findFrom closeTag (closeTag ++ t) i = i :: findFrom closeTag t (i + 4) :=
  findFrom_self closeTag t i (by simp [closeTag])

/-- Opening-marker scan of `A<b>B</b>C` when none of `A`, `B`, `C` contains
the character `<`: exactly the one occurrence, at offset `A.length`. -/
theorem scanOpen_ABC (A B C : List Char) (i : Nat)
    (hA : '<' ∉ A) (hB : '<' ∉ B) (hC : '<' ∉ C) :
    findFrom openTag (A ++ (openTag ++ (B ++ (closeTag ++ C)))) i =
      [i + A.length] := by
  rw [findFrom_open_skip A _ i hA, findFrom_open_self,
    findFrom_open_skip B _ _ hB, findFrom_open_over_close,
    findFrom_open_nil C _ hC]

/-- Closing-marker scan of `A<b>B</b>C` under the same hypotheses: exactly
the one occurrence, at offset `A.length + 3 + B.length`. -/
theorem scanClose_ABC (A B C : List Char) (i : Nat)
    (hA : '<' ∉ A) (hB : '<' ∉ B) (hC : '<' ∉ C) :
    findFrom closeTag (A ++ (openTag ++ (B ++ (closeTag ++ C)))) i =
      [i + A.length + 3 + B.length] := by
  rw [findFrom_close_skip A _ i hA, findFrom_close_over_open,
    findFrom_close_skip B _ _ hB, findFrom_close_self,
    findFrom_close_nil C _ hC]

/-- Newline scan of `X\nY` when neither part contains a newline: exactly the
one position `X.length`. -/
theorem scanNl_cross (X Y : List Char) (i : Nat)
    (hX : '\n' ∉ X) (hY : '\n' ∉ Y) :
    findFrom ['\n'] (X ++ '\n' :: Y) i = [i + X.length] := by
  rw [findFrom_append_head X ('\n' :: Y) i hX,
    show ('\n' :: Y) = ['\n'] ++ Y from rfl,
    findFrom_self ['\n'] Y _ (by simp),
    findFrom_head_nil Y _ hY]

theorem not_containsTag_of_not_mem {l tag : List Char} {c : Char}
    (hc : c ∈ tag) (h : c ∉ l) : ¬ containsTag l tag := by
  rintro ⟨s, t, rfl⟩
  exact h (List.mem_append.mpr (Or.inl (List.mem_append.mpr (Or.inr hc))))


/-! ### The capitalization transforms as character-wise case maps -/

theorem toNat_ofNat_valid (n : Nat) (h : n < 0xd800) : (Char.ofNat n).toNat = n := by
  rw [Char.ofNat, dif_pos (Or.inl h)]
  rfl

theorem toUpper_ne_lt (c : Char) (h : c ≠ '<') : c.toUpper ≠ '<' := by
  unfold Char.toUpper
  by_cases hc : c.toNat ≥ 97 ∧ c.toNat ≤ 122
  · rw [if_pos hc]
    intro heq
    have h1 : (Char.ofNat (c.toNat - 32)).toNat = ('<' : Char).toNat := by rw [heq]
    rw [toNat_ofNat_valid (c.toNat - 32) (by omega)] at h1
    have h2 : ('<' : Char).toNat = 60 := by decide
    omega
  · rw [if_neg hc]
    exact h

theorem toUpper_idem (c : Char) : c.toUpper.toUpper = c.toUpper := by
  unfold Char.toUpper
  by_cases hc : c.toNat ≥ 97 ∧ c.toNat ≤ 122
  · rw [if_pos hc, if_neg]
    rw [toNat_ofNat_valid (c.toNat - 32) (by omega)]
    omega
  · rw [if_neg hc, if_neg hc]

@[simp] theorem isCaseVariant_nil : isCaseVariant [] [] = true := rfl

@[simp] theorem isCaseVariant_nil_cons (b : Char) (ys : List Char) :
    isCaseVariant [] (b :: ys) = false := rfl

@[simp] theorem isCaseVariant_cons_nil (a : Char) (xs : List Char) :
    isCaseVariant (a :: xs) [] = false := rfl

@[simp] theorem isCaseVariant_cons (a b : Char) (xs ys : List Char) :
    isCaseVariant (a :: xs) (b :: ys) =
      ((a == b || a == b.toUpper) && isCaseVariant xs ys) := rfl

theorem isCaseVariant_refl : ∀ s : List Char, isCaseVariant s s = true
  | [] => rfl
  | a :: s => by simp [isCaseVariant_refl s]

theorem isCaseVariant_append : ∀ {x1 y1 : List Char} (x2 y2 : List Char),
    isCaseVariant x1 y1 = true → isCaseVariant x2 y2 = true →
    isCaseVariant (x1 ++ x2) (y1 ++ y2) = true := by
  intro x1
  induction x1 with
  | nil =>
    intro y1 x2 y2 h1 h2
    cases y1 with
    | nil => simpa using h2
    | cons b ys => simp at h1
  | cons a xs ih =>
    intro y1 x2 y2 h1 h2
    cases y1 with
    | nil => simp at h1
    | cons b ys =>
      simp only [isCaseVariant_cons, Bool.and_eq_true] at h1
      simp only [List.cons_append, isCaseVariant_cons, Bool.and_eq_true]
      exact ⟨h1.1, ih x2 y2 h1.2 h2⟩

theorem isCaseVariant_trans : ∀ {x y z : List Char},
    isCaseVariant x y = true → isCaseVariant y z = true →
    isCaseVariant x z = true := by
  intro x
  induction x with
  | nil =>
    intro y z h1 h2
    cases y <;> cases z <;> simp_all
  | cons a xs ih =>
    intro y z h1 h2
    cases y with
    | nil => simp at h1
    | cons b ys =>
      cases z with
      | nil => simp at h2
      | cons c zs =>
        simp only [isCaseVariant_cons, Bool.and_eq_true, Bool.or_eq_true,
          beq_iff_eq] at h1 h2 ⊢
        refine ⟨?_, ih h1.2 h2.2⟩
        rcases h1.1 with h1a | h1a <;> rcases h2.1 with h2a | h2a
        · exact Or.inl (h1a.trans h2a)
        · exact Or.inr (h1a.trans h2a)
        · exact Or.inr (by rw [h1a, h2a])
        · exact Or.inr (by rw [h1a, h2a, toUpper_idem])

theorem isCaseVariant_not_mem_lt : ∀ {x y : List Char},
    isCaseVariant x y = true → '<' ∉ y → '<' ∉ x := by
  intro x
  induction x with
  | nil =>
    intro y _ _
    simp
  | cons a xs ih =>
    intro y h1 h2
    cases y with
    | nil => simp at h1
    | cons b ys =>
      simp only [isCaseVariant_cons, Bool.and_eq_true, Bool.or_eq_true,
        beq_iff_eq] at h1
      intro hmem
      have hb : b ≠ '<' := fun h => h2 (h ▸ List.mem_cons_self b ys)
      rcases List.mem_cons.mp hmem with heq | hmem'
      · rcases h1.1 with h1a | h1a
        · exact hb (heq ▸ h1a).symm
        · exact toUpper_ne_lt b hb (heq ▸ h1a).symm
      · exact ih h1.2 (fun h => h2 (List.mem_cons_of_mem _ h)) hmem'

theorem isCaseVariant_append_singleton_lt :
    ∀ (A W : List Char), isCaseVariant W (A ++ ['<']) = true →
      ∃ A', W = A' ++ ['<'] ∧ isCaseVariant A' A = true := by
  intro A
  induction A with
  | nil =>
    intro W h
    cases W with
    | nil => simp at h
    | cons w ws =>
      cases ws with
      | nil =>
        have hup : Char.toUpper '<' = '<' := by decide
        simp only [List.nil_append, isCaseVariant_cons, hup, Bool.or_self,
          Bool.and_eq_true, beq_iff_eq] at h
        exact ⟨[], by simp [h.1], rfl⟩
      | cons w2 ws' => simp at h
  | cons a A'' ih =>
    intro W h
    cases W with
    | nil => simp at h
    | cons w ws =>
      simp only [List.cons_append, isCaseVariant_cons, Bool.and_eq_true] at h
      obtain ⟨A', hws, hvar⟩ := ih ws h.2
      refine ⟨w :: A', by rw [hws]; rfl, ?_⟩
      simp only [isCaseVariant_cons, Bool.and_eq_true]
      exact ⟨h.1, hvar⟩

/-! ### Structure of the label transform around the markers -/

theorem labelCapitalize_nil : labelCapitalize [] = [] := rfl

theorem labelCapitalize_one (a : Char) : labelCapitalize [a] = [a] := rfl

theorem labelCapitalize_two (a b : Char) : labelCapitalize [a, b] = [a, b] := rfl

theorem labelCapitalize_three (a b c : Char) :
    labelCapitalize [a, b, c] = [a, b, c] := rfl

theorem labelCapitalize_cons_noMatch (a : Char) (s : List Char)
    (h : ∀ b c d rest, s = b :: c :: d :: rest →
      ¬((a = 'A' ∨ a = '|' ∨ a = 'V') ∧ b = ':' ∧ c = ' ' ∧ d ≠ '\n')) :
    labelCapitalize (a :: s) = a :: labelCapitalize s := by
  match s with
  | [] => rfl
  | [b] => rfl
  | [b, c] => rfl
  | b :: c :: d :: rest =>
    show labelCapitalize (a :: b :: c :: d :: rest) = _
    simp only [labelCapitalize]
    rw [if_neg (h b c d rest rfl)]

theorem labelCapitalize_cons_not_label (a : Char) (s : List Char)
    (ha : ¬(a = 'A' ∨ a = '|' ∨ a = 'V')) :
    labelCapitalize (a :: s) = a :: labelCapitalize s :=
  labelCapitalize_cons_noMatch a s (fun _ _ _ _ _ hcond => ha hcond.1)

theorem labelCapitalize_lt_head (R : List Char) :
    labelCapitalize ('<' :: R) = '<' :: labelCapitalize R :=
  labelCapitalize_cons_not_label '<' R (by decide)

theorem labelCapitalize_bgt (u : List Char) :
    labelCapitalize ('b' :: '>' :: u) = 'b' :: '>' :: labelCapitalize u := by
  rw [labelCapitalize_cons_not_label 'b' _ (by decide),
    labelCapitalize_cons_not_label '>' _ (by decide)]

theorem labelCapitalize_closeseg (p : List Char) :
    labelCapitalize ('/' :: 'b' :: '>' :: p) =
      '/' :: 'b' :: '>' :: labelCapitalize p := by
  rw [labelCapitalize_cons_not_label '/' _ (by decide), labelCapitalize_bgt]

theorem labelCapitalize_variant_aux : ∀ (n : Nat) (s : List Char),
    s.length ≤ n → isCaseVariant (labelCapitalize s) s = true := by
  intro n
  induction n with
  | zero =>
    intro s h
    have hs : s = [] := List.length_eq_zero.mp (Nat.le_zero.mp h)
    subst hs
    rfl
  | succ n ih =>
    intro s h
    match s with
    | [] => rfl
    | [a] => simp [labelCapitalize_one, isCaseVariant_refl]
    | [a, b] => simp [labelCapitalize_two, isCaseVariant_refl]
    | [a, b, c] => simp [labelCapitalize_three, isCaseVariant_refl]
    | a :: b :: c :: d :: rest =>
      have hr : rest.length ≤ n := by
        simp only [List.length_cons] at h
        omega
      have hr3 : (b :: c :: d :: rest).length ≤ n := by
        simp only [List.length_cons] at h ⊢
        omega
      by_cases hcond : (a = 'A' ∨ a = '|' ∨ a = 'V') ∧ b = ':' ∧ c = ' ' ∧ d ≠ '\n'
      · show isCaseVariant (labelCapitalize (a :: b :: c :: d :: rest))
          (a :: b :: c :: d :: rest) = true
        simp only [labelCapitalize]
        rw [if_pos hcond]
        simp only [isCaseVariant_cons, Bool.and_eq_true, Bool.or_eq_true,
          beq_iff_eq]
        exact ⟨Or.inr trivial, Or.inr trivial, Or.inr trivial, Or.inr trivial,
          ih rest hr⟩
      · show isCaseVariant (labelCapitalize (a :: b :: c :: d :: rest))
          (a :: b :: c :: d :: rest) = true
        simp only [labelCapitalize]
        rw [if_neg hcond]
        simp only [isCaseVariant_cons, Bool.and_eq_true, Bool.or_eq_true,
          beq_iff_eq]
        exact ⟨Or.inl trivial, ih (b :: c :: d :: rest) hr3⟩

theorem labelCapitalize_variant (s : List Char) :
    isCaseVariant (labelCapitalize s) s = true :=
  labelCapitalize_variant_aux s.length s le_rfl

theorem labelCapitalize_split_aux : ∀ (n : Nat) (A R : List Char),
    A.length ≤ n → '<' ∉ A →
    labelCapitalize (A ++ '<' :: R) =
      labelCapitalize (A ++ ['<']) ++ labelCapitalize R := by
  intro n
  induction n with
  | zero =>
    intro A R h _
    have hs : A = [] := List.length_eq_zero.mp (Nat.le_zero.mp h)
    subst hs
    simp only [List.nil_append]
    rw [labelCapitalize_lt_head, labelCapitalize_one]
    rfl
  | succ n ih =>
    intro A R hlen hA
    cases A with
    | nil =>
      simp only [List.nil_append]
      rw [labelCapitalize_lt_head, labelCapitalize_one]
      rfl
    | cons a A1 =>
      cases A1 with
      | nil =>
        show labelCapitalize (a :: '<' :: R) =
          labelCapitalize [a, '<'] ++ labelCapitalize R
        rw [labelCapitalize_cons_noMatch a ('<' :: R)
            (fun b c d rest heq hcond => by
              have hb : ('<' : Char) = b := ((List.cons.injEq _ _ _ _).mp heq).1
              exact absurd (hb.trans hcond.2.1) (by decide)),
          labelCapitalize_lt_head, labelCapitalize_two]
        rfl
      | cons x A2 =>
        cases A2 with
        | nil =>
          show labelCapitalize (a :: x :: '<' :: R) =
            labelCapitalize [a, x, '<'] ++ labelCapitalize R
          rw [labelCapitalize_cons_noMatch a (x :: '<' :: R)
              (fun b c d rest heq hcond => by
                have ht := ((List.cons.injEq _ _ _ _).mp heq).2
                have hc : ('<' : Char) = c := ((List.cons.injEq _ _ _ _).mp ht).1
                exact absurd (hc.trans hcond.2.2.1) (by decide)),
            labelCapitalize_cons_noMatch x ('<' :: R)
              (fun b c d rest heq hcond => by
                have hb : ('<' : Char) = b := ((List.cons.injEq _ _ _ _).mp heq).1
                exact absurd (hb.trans hcond.2.1) (by decide)),
            labelCapitalize_lt_head, labelCapitalize_three]
          rfl
        | cons y A3 =>
          cases A3 with
          | nil =>
            show labelCapitalize (a :: x :: y :: '<' :: R) =
              labelCapitalize [a, x, y, '<'] ++ labelCapitalize R
            by_cases hcond : (a = 'A' ∨ a = '|' ∨ a = 'V') ∧ x = ':' ∧
                y = ' ' ∧ ('<' : Char) ≠ '\n'
            · simp only [labelCapitalize]
              rw [if_pos hcond, if_pos hcond]
              rfl
            · simp only [labelCapitalize]
              rw [if_neg hcond, if_neg hcond]
              have h2 := ih [x, y] R (by
                  simp only [List.length_cons] at hlen ⊢
                  omega)
                (fun hm => hA (by
                  simp only [List.mem_cons] at hm ⊢
                  tauto))
              simp only [List.cons_append, List.nil_append] at h2
              rw [h2, labelCapitalize_three]
              rfl
          | cons z A4 =>
            show labelCapitalize (a :: x :: y :: z :: (A4 ++ '<' :: R)) =
              labelCapitalize (a :: x :: y :: z :: (A4 ++ ['<'])) ++
                labelCapitalize R
            by_cases hcond : (a = 'A' ∨ a = '|' ∨ a = 'V') ∧ x = ':' ∧
                y = ' ' ∧ z ≠ '\n'
            · simp only [labelCapitalize]
              rw [if_pos hcond, if_pos hcond]
              have h4 := ih A4 R (by
                  simp only [List.length_cons] at hlen ⊢
                  omega)
                (fun hm => hA (by
                  simp only [List.mem_cons] at hm ⊢
                  tauto))
              rw [h4]
              rfl
            · simp only [labelCapitalize]
              rw [if_neg hcond, if_neg hcond]
              have h4 := ih (x :: y :: z :: A4) R (by
                  simp only [List.length_cons] at hlen ⊢
                  omega)
                (fun hm => hA (List.mem_cons_of_mem _ hm))
              simp only [List.cons_append] at h4
              rw [h4]
              rfl

theorem labelCapitalize_split (A R : List Char) (hA : '<' ∉ A) :
    labelCapitalize (A ++ '<' :: R) =
      labelCapitalize (A ++ ['<']) ++ labelCapitalize R :=
  labelCapitalize_split_aux A.length A R le_rfl hA

theorem labelCapitalize_append_lt (A : List Char) (hA : '<' ∉ A) :
    ∃ A', labelCapitalize (A ++ ['<']) = A' ++ ['<'] ∧
      isCaseVariant A' A = true ∧ '<' ∉ A' := by
  obtain ⟨A', heq, hvar⟩ := isCaseVariant_append_singleton_lt A
    (labelCapitalize (A ++ ['<'])) (labelCapitalize_variant (A ++ ['<']))
  exact ⟨A', heq, hvar, isCaseVariant_not_mem_lt hvar hA⟩

/-- The label transform on a line `A<b>B`: the prefix becomes a case variant
of itself, the marker survives literally, and the remainder is transformed
independently (a straddling match can only upper-case the `<`, which is
case-fixed, and no match can begin inside the marker). -/
theorem labelCapitalize_open_seg (A B : List Char) (hA : '<' ∉ A) :
    ∃ A', labelCapitalize (A ++ (openTag ++ B)) =
        A' ++ (openTag ++ labelCapitalize B) ∧
      isCaseVariant A' A = true ∧ '<' ∉ A' := by
  obtain ⟨A', h1, h2, h3⟩ := labelCapitalize_append_lt A hA
  refine ⟨A', ?_, h2, h3⟩
  show labelCapitalize (A ++ '<' :: ('b' :: '>' :: B)) = _
  rw [labelCapitalize_split A ('b' :: '>' :: B) hA, h1, labelCapitalize_bgt]
  simp [openTag, List.append_assoc]

/-- The label transform on a line `A</b>B`, analogously. -/
theorem labelCapitalize_close_seg (A B : List Char) (hA : '<' ∉ A) :
    ∃ A', labelCapitalize (A ++ (closeTag ++ B)) =
        A' ++ (closeTag ++ labelCapitalize B) ∧
      isCaseVariant A' A = true ∧ '<' ∉ A' := by
  obtain ⟨A', h1, h2, h3⟩ := labelCapitalize_append_lt A hA
  refine ⟨A', ?_, h2, h3⟩
  show labelCapitalize (A ++ '<' :: ('/' :: 'b' :: '>' :: B)) = _
  rw [labelCapitalize_split A ('/' :: 'b' :: '>' :: B) hA, h1,
    labelCapitalize_closeseg]
  simp [closeTag, List.append_assoc]

/-! ### Rendering one derived line of each shape -/

theorem renderLine_first (A B : List Char) (hA : '<' ∉ A) (hB : '<' ∉ B) :
    renderLine ((A ++ (openTag ++ B)) ++ closeTag) =
      .ok ((if A = [] then [] else [Run.mk A false]) ++ [Run.mk B true]) := by
  have hform : (A ++ (openTag ++ B)) ++ closeTag =
      A ++ (openTag ++ (B ++ (closeTag ++ []))) := by
    simp [List.append_assoc]
  have hs1 : find_all_substrings ((A ++ (openTag ++ B)) ++ closeTag) openTag =
      [A.length] := by
    show findFrom openTag _ 0 = _
    rw [hform, scanOpen_ABC A B [] 0 hA hB (by simp)]
    simp
  have he1 : find_all_substrings ((A ++ (openTag ++ B)) ++ closeTag) closeTag =
      [A.length + 3 + B.length] := by
    show findFrom closeTag _ 0 = _
    rw [hform, scanClose_ABC A B [] 0 hA hB (by simp)]
    simp
  have hok1 : get_bold_indices ((A ++ (openTag ++ B)) ++ closeTag) =
      .ok [(A.length, A.length + 3 + B.length)] := by
    simp only [get_bold_indices]
    rw [hs1, he1, if_neg (by simp)]
    simp
  have hlen1 : ((A ++ (openTag ++ B)) ++ closeTag).length =
      A.length + 3 + B.length + 4 := by
    simp [List.length_append, openTag, closeTag]
    omega
  have hslice1a : pySlice ((A ++ (openTag ++ B)) ++ closeTag) 0 A.length = A := by
    unfold pySlice
    rw [List.drop_zero,
      show (A ++ (openTag ++ B)) ++ closeTag =
        A ++ ((openTag ++ B) ++ closeTag) from by simp [List.append_assoc],
      List.take_left' rfl]
  have hslice1b : pySlice ((A ++ (openTag ++ B)) ++ closeTag) (A.length + 3)
      (A.length + 3 + B.length) = B := by
    unfold pySlice
    rw [show (A ++ (openTag ++ B)) ++ closeTag =
        ((A ++ openTag) ++ B) ++ closeTag from by simp [List.append_assoc],
      List.take_left' (by simp [List.length_append, openTag]; omega),
      List.drop_left' (by simp [List.length_append, openTag])]
  have htrail1 : ¬ (A.length + 3 + B.length + 4 <
      ((A ++ (openTag ++ B)) ++ closeTag).length) := by
    rw [hlen1]
    omega
  simp only [renderLine, hok1, Except.map]
  congr 1
  simp only [buildRuns, hslice1a, hslice1b]
  rw [if_neg htrail1]
  by_cases hp : A = []
  · simp [hp]
  · rw [if_pos (List.length_pos.mpr hp), if_neg hp]

theorem renderLine_second (B C : List Char) (hB : '<' ∉ B) (hC : '<' ∉ C) :
    renderLine (openTag ++ (B ++ (closeTag ++ C))) =
      .ok (Run.mk B true :: (if C = [] then [] else [Run.mk C false])) := by
  have hform2 : openTag ++ (B ++ (closeTag ++ C)) =
      [] ++ (openTag ++ (B ++ (closeTag ++ C))) := by
    simp
  have hs2 : find_all_substrings (openTag ++ (B ++ (closeTag ++ C))) openTag =
      [0] := by
    show findFrom openTag _ 0 = _
    rw [hform2, scanOpen_ABC [] B C 0 (by simp) hB hC]
    simp
  have he2 : find_all_substrings (openTag ++ (B ++ (closeTag ++ C))) closeTag =
      [3 + B.length] := by
    show findFrom closeTag _ 0 = _
    rw [hform2, scanClose_ABC [] B C 0 (by simp) hB hC]
    simp
  have hok2 : get_bold_indices (openTag ++ (B ++ (closeTag ++ C))) =
      .ok [(0, 3 + B.length)] := by
    simp only [get_bold_indices]
    rw [hs2, he2, if_neg (by simp)]
    simp
  have hlen2 : (openTag ++ (B ++ (closeTag ++ C))).length =
      3 + B.length + 4 + C.length := by
    simp [List.length_append, openTag, closeTag]
    omega
  have hslice2 : pySlice (openTag ++ (B ++ (closeTag ++ C))) (0 + 3)
      (3 + B.length) = B := by
    unfold pySlice
    rw [show openTag ++ (B ++ (closeTag ++ C)) =
        (openTag ++ B) ++ (closeTag ++ C) from by simp [List.append_assoc],
      List.take_left' (by simp [List.length_append, openTag]; omega),
      show (0 : Nat) + 3 = 3 from rfl,
      List.drop_left' (by simp [openTag])]
  have hdrop2 : (openTag ++ (B ++ (closeTag ++ C))).drop (3 + B.length + 4) =
      C := by
    rw [show openTag ++ (B ++ (closeTag ++ C)) =
        ((openTag ++ B) ++ closeTag) ++ C from by simp [List.append_assoc],
      List.drop_left' (by simp [List.length_append, openTag, closeTag]; omega)]
  simp only [renderLine, hok2, Except.map]
  congr 1
  simp only [buildRuns, hslice2]
  rw [if_neg (by omega)]
  by_cases hp : C = []
  · rw [if_neg (by rw [hlen2, hp]; simp), hp]
    simp
  · rw [if_pos (by rw [hlen2]; have := List.length_pos.mpr hp; omega), hdrop2]
    rw [if_neg hp]
    simp

/-- C1 counterexample: on scenario B's own stanza `<b>line one\nline two</b>`
the program's re-flow capitalizes the first character of the continuation
line before injecting the synthetic markers, so the second bold run is
`Line two` and the concatenated bold text is not character-for-character the
span's text — a character is altered, so the claimed exact coverage fails. -/
theorem span_crossing_exact_coverage_refuted :
    processTextBlock ("<b>line one\nline two</b>".toList) =
        .ok [[Run.mk ("line one".toList) true],
          [Run.mk ("Line two".toList) true]] ∧
      boldTextOfParas [[Run.mk ("line one".toList) true],
          [Run.mk ("Line two".toList) true]] ≠
        ("line one".toList ++ "line two".toList) := by
  constructor <;> decide

/-- C1 (amended): re-flowing a stanza `pre<b>u\nv</b>post` whose single bold
span crosses its single internal line break — the segments free of markers
(no `<`) and of line breaks — yields exactly two rendered lines: a case
variant of `pre` plain (when non-empty) then a case variant of `u` bold, and
a case variant of `v` bold then a case variant of `post` plain (when
non-empty).  The concatenated bold text covers the span's text
character-for-character up to the capitalization transforms — each character
kept or upper-cased, none duplicated or dropped, the crossing line break
becoming the paragraph boundary — and no run's text contains a literal
`<b>` or `</b>`. -/
theorem span_crossing_reflow_capitalized (pre u v post : List Char)
    (hpre : '<' ∉ pre) (hu : '<' ∉ u) (hv : '<' ∉ v) (hpost : '<' ∉ post)
    (hpre' : '\n' ∉ pre) (hu' : '\n' ∉ u) (hv' : '\n' ∉ v)
    (hpost' : '\n' ∉ post) :
    ∃ preT uT vT postT,
      processTextBlock (pre ++ openTag ++ u ++ '\n' :: (v ++ closeTag ++ post)) =
          .ok [(if preT = [] then [] else [Run.mk preT false]) ++ [Run.mk uT true],
            Run.mk vT true :: (if postT = [] then [] else [Run.mk postT false])] ∧
        isCaseVariant preT pre = true ∧ isCaseVariant uT u = true ∧
        isCaseVariant vT v = true ∧ isCaseVariant postT post = true ∧
        isCaseVariant (boldTextOfParas
            [(if preT = [] then [] else [Run.mk preT false]) ++ [Run.mk uT true],
              Run.mk vT true :: (if postT = [] then [] else [Run.mk postT false])])
          (u ++ v) = true ∧
        ∀ r ∈ ((if preT = [] then [] else [Run.mk preT false]) ++ [Run.mk uT true]) ++
            (Run.mk vT true :: (if postT = [] then [] else [Run.mk postT false])),
          ¬ containsTag r.text openTag ∧ ¬ containsTag r.text closeTag := by
  have hnlopen : ('\n' : Char) ∉ openTag := by decide
  have hnlclose : ('\n' : Char) ∉ closeTag := by decide
  have hXnl : '\n' ∉ (pre ++ openTag) ++ u := by
    intro h
    rcases List.mem_append.mp h with h | h
    · rcases List.mem_append.mp h with h | h
      · exact hpre' h
      · exact hnlopen h
    · exact hu' h
  have hYnl : '\n' ∉ (v ++ closeTag) ++ post := by
    intro h
    rcases List.mem_append.mp h with h | h
    · rcases List.mem_append.mp h with h | h
      · exact hv' h
      · exact hnlclose h
    · exact hpost' h
  have hBmid : '<' ∉ u ++ '\n' :: v := by
    intro h
    rcases List.mem_append.mp h with h | h
    · exact hu h
    · rcases List.mem_cons.mp h with h | h
      · exact absurd h (by decide)
      · exact hv h
  have hSnorm : ((pre ++ openTag) ++ u) ++ ('\n' :: ((v ++ closeTag) ++ post)) =
      pre ++ (openTag ++ ((u ++ '\n' :: v) ++ (closeTag ++ post))) := by
    simp [List.append_assoc]
  have hstarts : find_all_substrings
      (pre ++ openTag ++ u ++ '\n' :: (v ++ closeTag ++ post)) openTag =
      [pre.length] := by
    show findFrom openTag _ 0 = _
    rw [hSnorm, scanOpen_ABC pre (u ++ '\n' :: v) post 0 hpre hBmid hpost]
    simp
  have hends : find_all_substrings
      (pre ++ openTag ++ u ++ '\n' :: (v ++ closeTag ++ post)) closeTag =
      [pre.length + u.length + v.length + 4] := by
    show findFrom closeTag _ 0 = _
    rw [hSnorm, scanClose_ABC pre (u ++ '\n' :: v) post 0 hpre hBmid hpost]
    simp [List.length_append]
    omega
  have hok : get_bold_indices
      (pre ++ openTag ++ u ++ '\n' :: (v ++ closeTag ++ post)) =
      .ok [(pre.length, pre.length + u.length + v.length + 4)] := by
    simp only [get_bold_indices]
    rw [hstarts, hends, if_neg (by simp)]
    simp
  have hchk : checkAscending
      [(pre.length, pre.length + u.length + v.length + 4)] = .ok () := by
    have hle : pre.length ≤ pre.length + u.length + v.length + 4 := by omega
    simp [checkAscending, flattenPairs, List.insertionSort, List.orderedInsert, hle]
  have hnlpos : find_all_substrings
      (pre ++ openTag ++ u ++ '\n' :: (v ++ closeTag ++ post)) ['\n'] =
      [pre.length + 3 + u.length] := by
    show findFrom ['\n'] _ 0 = _
    rw [scanNl_cross ((pre ++ openTag) ++ u) ((v ++ closeTag) ++ post) 0 hXnl hYnl]
    simp [List.length_append, openTag]
    omega
  have hsplit : splitNl (pre ++ openTag ++ u ++ '\n' :: (v ++ closeTag ++ post)) =
      [(pre ++ openTag) ++ u, (v ++ closeTag) ++ post] := by
    rw [splitNl_append_nl, splitNl_no_nl hXnl, splitNl_no_nl hYnl]
    rfl
  have hwithin : isWithinBold [(pre.length, pre.length + u.length + v.length + 4)]
      (pre.length + 3 + u.length) = true := by
    simp [isWithinBold]
    omega
  -- effect of the first-character capitalization on the two derived lines
  have hcapX : ∃ preC, capitalizeFirst ((pre ++ openTag) ++ u) =
      .ok (preC ++ (openTag ++ u)) ∧ isCaseVariant preC pre = true ∧
      '<' ∉ preC := by
    cases pre with
    | nil =>
      refine ⟨[], ?_, rfl, by simp⟩
      show capitalizeFirst ('<' :: 'b' :: '>' :: u) =
        .ok ('<' :: 'b' :: '>' :: u)
      simp [capitalizeFirst, show Char.toUpper '<' = '<' from by decide]
    | cons c pre'' =>
      refine ⟨c.toUpper :: pre'', ?_, ?_, ?_⟩
      · show capitalizeFirst (c :: ((pre'' ++ openTag) ++ u)) =
          .ok ((c.toUpper :: pre'') ++ (openTag ++ u))
        simp [capitalizeFirst, List.append_assoc]
      · simp [isCaseVariant_refl]
      · intro hm
        rcases List.mem_cons.mp hm with heq | hm'
        · exact toUpper_ne_lt c
            (fun h => hpre (h ▸ List.mem_cons_self c pre'')) heq.symm
        · exact hpre (List.mem_cons_of_mem _ hm')
  have hcapY : ∃ vC, capitalizeFirst ((v ++ closeTag) ++ post) =
      .ok (vC ++ (closeTag ++ post)) ∧ isCaseVariant vC v = true ∧
      '<' ∉ vC := by
    cases v with
    | nil =>
      refine ⟨[], ?_, rfl, by simp⟩
      show capitalizeFirst ('<' :: '/' :: 'b' :: '>' :: post) =
        .ok ('<' :: '/' :: 'b' :: '>' :: post)
      simp [capitalizeFirst, show Char.toUpper '<' = '<' from by decide]
    | cons c v'' =>
      refine ⟨c.toUpper :: v'', ?_, ?_, ?_⟩
      · show capitalizeFirst (c :: ((v'' ++ closeTag) ++ post)) =
          .ok ((c.toUpper :: v'') ++ (closeTag ++ post))
        simp [capitalizeFirst, List.append_assoc]
      · simp [isCaseVariant_refl]
      · intro hm
        rcases List.mem_cons.mp hm with heq | hm'
        · exact toUpper_ne_lt c
            (fun h => hv (h ▸ List.mem_cons_self c v'')) heq.symm
        · exact hv (List.mem_cons_of_mem _ hm')
  obtain ⟨preC, hcX, hvarC, hltC⟩ := hcapX
  obtain ⟨vC, hcY, hvarvC, hltvC⟩ := hcapY
  -- effect of the label transform on the two derived lines
  obtain ⟨preL, hlab1, hvarL1, hltL1⟩ := labelCapitalize_open_seg preC u hltC
  obtain ⟨vL, hlab2, hvarL2, hltL2⟩ := labelCapitalize_close_seg vC post hltvC
  have hltu : '<' ∉ labelCapitalize u :=
    isCaseVariant_not_mem_lt (labelCapitalize_variant u) hu
  have hltpost : '<' ∉ labelCapitalize post :=
    isCaseVariant_not_mem_lt (labelCapitalize_variant post) hpost
  have hmapcap : [(pre ++ openTag) ++ u, (v ++ closeTag) ++ post].mapM
      capitalizeFirst =
      .ok [preC ++ (openTag ++ u), vC ++ (closeTag ++ post)] := by
    simp only [List.mapM_cons, List.mapM_nil, hcX, hcY]
    rfl
  have hinj : injectBoldTags [true]
      [preL ++ (openTag ++ labelCapitalize u),
        vL ++ (closeTag ++ labelCapitalize post)] =
      [(preL ++ (openTag ++ labelCapitalize u)) ++ closeTag,
        openTag ++ (vL ++ (closeTag ++ labelCapitalize post))] := by
    simp [injectBoldTags]
  have hr1 := renderLine_first preL (labelCapitalize u) hltL1 hltu
  have hr2 := renderLine_second vL (labelCapitalize post) hltL2 hltpost
  refine ⟨preL, labelCapitalize u, vL, labelCapitalize post,
    ?_, isCaseVariant_trans hvarL1 hvarC, labelCapitalize_variant u,
    isCaseVariant_trans hvarL2 hvarvC, labelCapitalize_variant post, ?_, ?_⟩
  · simp only [processTextBlock, hok, hchk, Except.bind, bind, hnlpos, hsplit,
      hmapcap, List.map_cons, List.map_nil, hlab1, hlab2, hwithin,
      List.length_cons, List.length_nil, Nat.lt_irrefl, gt_iff_lt,
      Nat.zero_lt_succ, if_true, hinj, List.mapM_cons, List.mapM_nil, hr1, hr2]
    rfl
  · have hbold : boldTextOfParas
        [(if preL = [] then [] else [Run.mk preL false]) ++
            [Run.mk (labelCapitalize u) true],
          Run.mk vL true ::
            (if labelCapitalize post = [] then []
              else [Run.mk (labelCapitalize post) false])] =
        labelCapitalize u ++ vL := by
      by_cases h1 : preL = [] <;> by_cases h2 : labelCapitalize post = [] <;>
        simp [h1, h2, boldTextOfParas, boldTextOfRuns]
    rw [hbold]
    exact isCaseVariant_append vL v (labelCapitalize_variant u)
      (isCaseVariant_trans hvarL2 hvarvC)
  · have hopen : ('<' : Char) ∈ openTag := by decide
    have hclose : ('<' : Char) ∈ closeTag := by decide
    intro r hr
    by_cases h1 : preL = [] <;> by_cases h2 : labelCapitalize post = [] <;>
      simp [h1, h2] at hr
    · rcases hr with rfl | rfl
      · exact ⟨not_containsTag_of_not_mem hopen hltu,
          not_containsTag_of_not_mem hclose hltu⟩
      · exact ⟨not_containsTag_of_not_mem hopen hltL2,
          not_containsTag_of_not_mem hclose hltL2⟩
    · rcases hr with rfl | rfl | rfl
      · exact ⟨not_containsTag_of_not_mem hopen hltu,
          not_containsTag_of_not_mem hclose hltu⟩
      · exact ⟨not_containsTag_of_not_mem hopen hltL2,
          not_containsTag_of_not_mem hclose hltL2⟩
      · exact ⟨not_containsTag_of_not_mem hopen hltpost,
          not_containsTag_of_not_mem hclose hltpost⟩
    · rcases hr with rfl | rfl | rfl
      · exact ⟨not_containsTag_of_not_mem hopen hltL1,
          not_containsTag_of_not_mem hclose hltL1⟩
      · exact ⟨not_containsTag_of_not_mem hopen hltu,
          not_containsTag_of_not_mem hclose hltu⟩
      · exact ⟨not_containsTag_of_not_mem hopen hltL2,
          not_containsTag_of_not_mem hclose hltL2⟩
    · rcases hr with rfl | rfl | rfl | rfl
      · exact ⟨not_containsTag_of_not_mem hopen hltL1,
          not_containsTag_of_not_mem hclose hltL1⟩
      · exact ⟨not_containsTag_of_not_mem hopen hltu,
          not_containsTag_of_not_mem hclose hltu⟩
      · exact ⟨not_containsTag_of_not_mem hopen hltL2,
          not_containsTag_of_not_mem hclose hltL2⟩
      · exact ⟨not_containsTag_of_not_mem hopen hltpost,
          not_containsTag_of_not_mem hclose hltpost⟩

/-- Witness for the amended C1: scenario B's stanza
`<b>line one\nline two</b>` — two rendered lines, each a single fully bold
run, the bold text a case variant of the span's text with the line break as
the paragraph boundary, no marker text in any run. -/
theorem span_crossing_reflow_capitalized_witness :
    ∃ preT uT vT postT,
      processTextBlock ([] ++ openTag ++ "line one".toList ++
          '\n' :: ("line two".toList ++ closeTag ++ [])) =
          .ok [(if preT = [] then [] else [Run.mk preT false]) ++ [Run.mk uT true],
            Run.mk vT true :: (if postT = [] then [] else [Run.mk postT false])] ∧
        isCaseVariant preT [] = true ∧
        isCaseVariant uT ("line one".toList) = true ∧
        isCaseVariant vT ("line two".toList) = true ∧
        isCaseVariant postT [] = true ∧
        isCaseVariant (boldTextOfParas
            [(if preT = [] then [] else [Run.mk preT false]) ++ [Run.mk uT true],
              Run.mk vT true :: (if postT = [] then [] else [Run.mk postT false])])
          ("line one".toList ++ "line two".toList) = true ∧
        ∀ r ∈ ((if preT = [] then [] else [Run.mk preT false]) ++ [Run.mk uT true]) ++
            (Run.mk vT true :: (if postT = [] then [] else [Run.mk postT false])),
          ¬ containsTag r.text openTag ∧ ¬ containsTag r.text closeTag :=
  span_crossing_reflow_capitalized [] ("line one".toList) ("line two".toList) []
    (by decide) (by decide) (by decide) (by decide)
    (by decide) (by decide) (by decide) (by decide)

/-! ### The header scan round-trips well-formed blocks -/

theorem startsWith_shrink {l t pat : List Char}
    (h : startsWith (l ++ t) pat = true) (hlen : pat.length ≤ l.length) :
    startsWith l pat = true := by
  induction pat generalizing l with
  | nil => simp
  | cons p ps ih =>
    cases l with
    | nil => simp at hlen
    | cons c l' =>
      rw [List.cons_append] at h
      simp only [startsWith_cons_cons, Bool.and_eq_true] at h ⊢
      refine ⟨h.1, ih h.2 ?_⟩
      simp only [List.length_cons] at hlen
      omega

theorem startsWith_take {s pat : List Char}
    (h : startsWith s pat = true) (n : Nat) :
    startsWith s (pat.take n) = true := by
  induction pat generalizing s n with
  | nil => simp
  | cons p ps ih =>
    cases n with
    | zero => simp
    | succ n' =>
      cases s with
      | nil => simp at h
      | cons c s' =>
        rw [List.take_succ_cons]
        simp only [startsWith_cons_cons, Bool.and_eq_true] at h ⊢
        exact ⟨h.1, ih h.2 n'⟩

/-- No configured key line can satisfy the probe of a different configured
key, compared on the first `min` of the two lengths — a finite check over
the concrete key set (in particular `TITLE` versus `TITLE_ORIGINAL`, where
the character after the shared stem is `=` on one side and `_` on the
other). -/
theorem headerKeys_mismatch_table :
    ∀ k1 ∈ headerKeys.map Prod.fst, ∀ k2 ∈ headerKeys.map Prod.fst, k1 ≠ k2 →
      startsWith (k2 ++ ['='])
        ((k1 ++ ['=']).take (min (k1.length + 1) (k2.length + 1))) = false := by
  decide

/-- A header line `k2=v` never matches the probe for a different configured
key `k1`. -/
theorem key_line_mismatch {k1 k2 v : List Char}
    (h1 : k1 ∈ headerKeys.map Prod.fst) (h2 : k2 ∈ headerKeys.map Prod.fst)
    (hne : k1 ≠ k2) :
    startsWith (k2 ++ '=' :: v) (k1 ++ ['=']) = false := by
  cases hB : startsWith (k2 ++ '=' :: v) (k1 ++ ['=']) with
  | false => rfl
  | true =>
    exfalso
    have h3 : startsWith (k2 ++ '=' :: v)
        ((k1 ++ ['=']).take (min (k1.length + 1) (k2.length + 1))) = true :=
      startsWith_take hB _
    rw [show k2 ++ '=' :: v = (k2 ++ ['=']) ++ v from by simp] at h3
    have h4 : startsWith (k2 ++ ['='])
        ((k1 ++ ['=']).take (min (k1.length + 1) (k2.length + 1))) = true := by
      apply startsWith_shrink h3
      simp only [List.length_take, List.length_append, List.length_cons,
        List.length_nil]
      omega
    rw [headerKeys_mismatch_table k1 h1 k2 h2 hne] at h4
    exact Bool.noConfusion h4

theorem readHeaderAux_round_trip :
    ∀ (ks : List (List Char × Bool)) (fields : List (List Char × List Char))
      (rest : List (List Char)) (vals : List (List Char × List Char)) (n : Nat),
      List.Sublist ks headerKeys →
      List.Sublist (fields.map Prod.fst) (ks.map Prod.fst) →
      (∀ p ∈ ks, p.2 = true → p.1 ∈ fields.map Prod.fst) →
      (∀ p ∈ fields, pyStrip p.2 ≠ []) →
      rest ≠ [] →
      (∀ k ∈ headerKeys.map Prod.fst,
        startsWith (rest.headD []) (k ++ ['=']) = false) →
      readHeaderAux ks (fields.map serializeField ++ rest) vals n =
        .ok (vals.reverse ++ fields, rest, n + fields.length) := by
  intro ks
  induction ks with
  | nil =>
    intro fields rest vals n _ hsub _ _ _ _
    have hf : fields = [] :=
      List.map_eq_nil_iff.mp (List.sublist_nil.mp hsub)
    subst hf
    simp [readHeaderAux]
  | cons kp ks' ih =>
    obtain ⟨k, mand⟩ := kp
    intro fields rest vals n hks hsub hmand hvals hrest hbody
    have hks' : List.Sublist ks' headerKeys := List.sublist_of_cons_sublist hks
    have hkmem : k ∈ headerKeys.map Prod.fst := by
      have hm : (k, mand) ∈ headerKeys := hks.subset (List.mem_cons_self _ _)
      exact List.mem_map.mpr ⟨(k, mand), hm, rfl⟩
    have hknotin : k ∉ ks'.map Prod.fst := by
      have hmapsub : List.Sublist (k :: ks'.map Prod.fst)
          (headerKeys.map Prod.fst) := by
        have := hks.map Prod.fst
        simpa using this
      have hnodup : (headerKeys.map Prod.fst).Nodup := by decide
      exact (List.nodup_cons.mp (hnodup.sublist hmapsub)).1
    cases fields with
    | nil =>
      cases rest with
      | nil => exact absurd rfl hrest
      | cons r0 rs =>
        have hb : startsWith r0 (k ++ ['=']) = false := hbody k hkmem
        have hmf : mand = false := by
          cases mand with
          | false => rfl
          | true =>
            have := hmand (k, true) (List.mem_cons_self _ _) rfl
            simp at this
        subst hmf
        show readHeaderAux ((k, false) :: ks') (r0 :: rs) vals n = _
        simp only [readHeaderAux, hb, Bool.false_eq_true, if_false]
        have ihr := ih [] (r0 :: rs) vals n hks' (by simp)
          (fun p hp h2 => by
            have := hmand p (List.mem_cons_of_mem _ hp) h2
            simp at this)
          (by simp) hrest hbody
        simpa using ihr
    | cons f1 fs =>
      obtain ⟨k1, v1⟩ := f1
      rcases List.sublist_cons_iff.mp (by simpa using hsub) with
        hcase | ⟨t, hteq, htsub⟩
      · -- the field's key comes later in the configured order than `k`
        have hk1mem : k1 ∈ ks'.map Prod.fst := hcase.subset (by simp)
        have hk1memH : k1 ∈ headerKeys.map Prod.fst :=
          (hks'.map Prod.fst).subset hk1mem
        have hne : k ≠ k1 := fun h => hknotin (h ▸ hk1mem)
        have hb : startsWith (k1 ++ '=' :: v1) (k ++ ['=']) = false :=
          key_line_mismatch hkmem hk1memH hne
        have hmf : mand = false := by
          cases mand with
          | false => rfl
          | true =>
            have hkin := hmand (k, true) (List.mem_cons_self _ _) rfl
            have hkin' : k ∈ ks'.map Prod.fst := hcase.subset (by simpa using hkin)
            exact absurd hkin' hknotin
        subst hmf
        show readHeaderAux ((k, false) :: ks')
          ((k1 ++ '=' :: v1) :: (fs.map serializeField ++ rest)) vals n = _
        simp only [readHeaderAux, hb, Bool.false_eq_true, if_false]
        exact ih ((k1, v1) :: fs) rest vals n hks' (by simpa using hcase)
          (fun p hp h2 => hmand p (List.mem_cons_of_mem _ hp) h2)
          hvals hrest hbody
      · -- the field consumes `k`
        have hk1k : k1 = k := by
          have := (List.cons.injEq _ _ _ _).mp hteq
          exact this.1
        subst hk1k
        have hfst : fs.map Prod.fst = t := by
          have := (List.cons.injEq _ _ _ _).mp hteq
          exact this.2
        show readHeaderAux ((k1, mand) :: ks')
          ((k1 ++ '=' :: v1) :: (fs.map serializeField ++ rest)) vals n = _
        have hsw : startsWith (k1 ++ '=' :: v1) (k1 ++ ['=']) = true := by
          rw [show k1 ++ '=' :: v1 = (k1 ++ ['=']) ++ v1 from by simp]
          exact startsWith_append_self _ _
        have hval : (k1 ++ '=' :: v1).drop (k1.length + 1) = v1 := by
          rw [show k1 ++ '=' :: v1 = (k1 ++ ['=']) ++ v1 from by simp]
          exact List.drop_left' (by simp)
        simp only [readHeaderAux, hsw, if_true, hval]
        rw [if_pos (hvals (k1, v1) (List.mem_cons_self _ _))]
        have ihr := ih fs rest ((k1, v1) :: vals) (n + 1) hks'
          (hfst ▸ htsub)
          (fun p hp h2 => by
            have h3 := hmand p (List.mem_cons_of_mem _ hp) h2
            have hp1 : p.1 ∈ ks'.map Prod.fst := List.mem_map.mpr ⟨p, hp, rfl⟩
            rw [List.map_cons] at h3
            rcases List.mem_cons.mp h3 with h4 | h4
            · exact absurd ((show p.1 = k1 from h4) ▸ hp1) hknotin
            · exact h4)
          (fun p hp => hvals p (List.mem_cons_of_mem _ hp)) hrest hbody
        rw [ihr]
        have harith : n + 1 + fs.length = n + (fs.length + 1) := by omega
        have hvapp : ((k1, v1) :: vals).reverse ++ fs =
            vals.reverse ++ (k1, v1) :: fs := by
          simp
        rw [harith, hvapp]
        rfl

/-- C8: parsing a well-formed header block — populated fields whose keys are
a subsequence of the configured key order, every mandatory key among them,
every value non-empty after trimming, followed by at least one body line
that matches no key probe — returns exactly the supplied ordered fields (and
the body untouched), so re-serializing each populated field as `KEY=VALUE`
in the order the fields were populated reproduces the original block lines,
key order and values included. -/
theorem header_round_trip (fields : List (List Char × List Char))
    (rest : List (List Char))
    (hsub : List.Sublist (fields.map Prod.fst) (headerKeys.map Prod.fst))
    (hmand : ∀ p ∈ headerKeys, p.2 = true → p.1 ∈ fields.map Prod.fst)
    (hvals : ∀ p ∈ fields, pyStrip p.2 ≠ [])
    (hrest : rest ≠ [])
    (hbody : ∀ k ∈ headerKeys.map Prod.fst,
      startsWith (rest.headD []) (k ++ ['=']) = false) :
    readHeader (fields.map serializeField ++ rest) =
      .ok (fields, rest, fields.length) := by
  have h := readHeaderAux_round_trip headerKeys fields rest [] 0
    (List.Sublist.refl _) hsub hmand hvals hrest hbody
  simpa using h

/-- Witness for C8: the three-line block `TITLE=x`, `AUTHORS=y`,
`COPYRIGHT=z` followed by the body line `body` parses back to exactly those
three fields in order, consuming three lines. -/
theorem header_round_trip_witness :
    readHeader [("TITLE=x".toList), ("AUTHORS=y".toList),
        ("COPYRIGHT=z".toList), ("body".toList)] =
      .ok ([("TITLE".toList, "x".toList), ("AUTHORS".toList, "y".toList),
        ("COPYRIGHT".toList, "z".toList)], [("body".toList)], 3) := by
  have h := header_round_trip
    [("TITLE".toList, "x".toList), ("AUTHORS".toList, "y".toList),
      ("COPYRIGHT".toList, "z".toList)]
    [("body".toList)]
    (by decide) (by decide) (by decide) (by decide) (by decide)
  simpa using h

end Songs2Docx
